import Mathlib

/-!
Verification of the two manifest-rewriting scripts `add_hotpath.py` and
`add_channels_console.py`.  Both scripts share one algorithm,
`process_cargo_toml`: a cleanup pass that strips previously inserted
directive lines, followed by an insertion pass that re-inserts a fixed
dependency line after the `[dependencies]` header and a fixed feature-line
block after (or inside a freshly synthesized) `[features]` section.
The algorithm is embedded below as a pure function from the manifest's
line sequence to the rewritten line sequence, parametrized by the
dependency line and the feature-line block; the two scripts are the two
concrete instantiations `hotpathDep/hotpathFeats` and
`channelsDep/channelsFeats` (the second script's single `FEATURE_LINE`
constant behaves exactly as a one-element feature block).

Lines are modelled as `List Char`, exactly the character sequences that
Python's `readlines` produces (trailing `'\n'` included), so that the
scripts' exact-text comparisons and `re.match` start-anchored prefix
tests become decidable list operations.
-/

set_option autoImplicit false

namespace ZedScripts

/-- One manifest line as produced by `readlines` (trailing newline kept). -/
abbrev Line := List Char

/-- `re.match(r'^\[dependencies\]', line)`: the line starts with `[dependencies]`. -/
def isDepsHdr (l : Line) : Bool := ("[dependencies]").toList.isPrefixOf l

/-- `re.match(r'^\[features\]', line)`: the line starts with `[features]`. -/
def isFeatHdr (l : Line) : Bool := ("[features]").toList.isPrefixOf l

/-- `re.match(r'^\[', line)`: the line starts with `[`. -/
def isSectionHdr (l : Line) : Bool := ("[").toList.isPrefixOf l

/-- The blank line `'\n'`. -/
def blankLine : Line := ("\n").toList

/-- The `'[features]\n'` header line that the scripts insert when they
synthesize a features section. -/
def featuresHdrLine : Line := ("[features]\n").toList

/-- The predicate under which the cleanup pass keeps a line: the line is
not the dependency line and not one of the feature-block lines. -/
def keepLine (dep : Line) (feats : List Line) (l : Line) : Bool :=
  !(l == dep || feats.contains l)

/-- First pass of `process_cargo_toml`: drop every line equal to the
dependency line or to a line of the feature block, and record (on the kept
lines, where the check is performed) whether a `[features]` header exists.
Returns `(cleaned_lines, features_exists)`. -/
def cleanupPass (dep : Line) (feats : List Line) : List Line → List Line × Bool
  | [] => ([], false)
  | l :: rest =>
    if l == dep || feats.contains l then
      cleanupPass dep feats rest
    else
      let r := cleanupPass dep feats rest
      (l :: r.1, isFeatHdr l || r.2)

/-- Second pass of `process_cargo_toml` (the `while` loop): walk the
cleaned lines, copy each one, and
* after the first `[dependencies]` header insert the dependency line,
* after the first `[features]` header insert the feature block,
* at a section header that is not a dependencies header, when the
  dependency was inserted, no features section exists (`fe`) and the
  block was not yet inserted, synthesize `'\n'`, `'[features]\n'` and the
  feature block immediately before that header (the three
  `new_lines.insert(-1, ...)` calls place them before the line that was
  just appended).
State `(da, fa)` is `(dependency_added, features_added)`; the result is
`(new_lines, dependency_added, features_added)`. -/
def insertLoop (dep : Line) (feats : List Line) (fe : Bool) (da fa : Bool) :
    List Line → List Line × Bool × Bool
  | [] => ([], da, fa)
  | l :: rest =>
    if isDepsHdr l && !da then
      let r := insertLoop dep feats fe true fa rest
      (l :: dep :: r.1, r.2)
    else if isFeatHdr l && !fa then
      let r := insertLoop dep feats fe da true rest
      (l :: (feats ++ r.1), r.2)
    else if isSectionHdr l && !isDepsHdr l && da && !fe && !fa then
      let r := insertLoop dep feats fe da true rest
      (blankLine :: featuresHdrLine :: (feats ++ l :: r.1), r.2)
    else
      let r := insertLoop dep feats fe da fa rest
      (l :: r.1, r.2)

/-- The insertion pass together with the end-of-file fallback: if the
dependency was added, no features section existed and the block was never
inserted, append `'\n'`, `'[features]\n'` and the feature block at the end
(and `features_added` becomes true). -/
def insertionStage (dep : Line) (feats : List Line) (p : List Line × Bool) :
    List Line × Bool × Bool :=
  let r := insertLoop dep feats p.2 false false p.1
  if r.2.1 && !p.2 && !r.2.2 then
    (r.1 ++ blankLine :: featuresHdrLine :: feats, r.2.1, true)
  else r

/-- The full per-file transform of `process_cargo_toml`: cleanup pass, then
insertion pass.  Returns `(new_lines, dependency_added, features_added)`. -/
def process (dep : Line) (feats : List Line) (lines : List Line) :
    List Line × Bool × Bool :=
  insertionStage dep feats (cleanupPass dep feats lines)

/-- The rewritten content that `process_cargo_toml` writes back. -/
def rewrite (dep : Line) (feats : List Line) (lines : List Line) : List Line :=
  (process dep feats lines).1

/-- `DEPENDENCY_LINE` of `add_hotpath.py`. -/
def hotpathDep : Line :=
  ("hotpath = \x7b version = \"0.7\", optional = true \x7d\n").toList

/-- `FEATURE_LINES` of `add_hotpath.py`. -/
def hotpathFeats : List Line :=
  [("hotpath = [\"dep:hotpath\", \"hotpath/hotpath\"]\n").toList,
   ("hotpath-alloc = [\"hotpath/hotpath-alloc\"]\n").toList,
   ("\n").toList,
   ("hotpath-off = [\"hotpath/hotpath-off\"]\n").toList]

/-- `DEPENDENCY_LINE` of `add_channels_console.py`. -/
def channelsDep : Line :=
  ("channels-console = \x7b version = \"0.2\", optional = true, features=[\x27tokio\x27, \x27futures\x27] \x7d\n").toList

/-- `FEATURE_LINE` of `add_channels_console.py`, as a one-element block:
the script's single-line comparisons and appends coincide with the block
operations on `['\n']`. -/
def channelsFeats : List Line := [("\n").toList]

/-- The observable outcome of `process_cargo_toml` on one file: the content
written back (the write is unconditional) and which message is printed
(`okMsg = true` is the success indicator, `false` the warning). -/
structure FileRun where
  written : List Line
  okMsg : Bool
deriving DecidableEq

/-- `process_cargo_toml` as a function to its observable outcome: the file
is always rewritten to the transformed content, and the success indicator
is printed exactly when `dependency_added and features_added`. -/
def processFile (dep : Line) (feats : List Line) (content : List Line) : FileRun :=
  let r := process dep feats content
  { written := r.1, okMsg := r.2.1 && r.2.2 }

/-- Lexicographic order on paths (modelling `sorted(cargo_files)`). -/
def pathLe : List Char → List Char → Bool
  | [], _ => true
  | _ :: _, [] => false
  | a :: as, b :: bs => if a = b then pathLe as bs else decide (a < b)

/-- Insert one file into an already path-sorted list. -/
def insertSorted (p : List Char × List Line) :
    List (List Char × List Line) → List (List Char × List Line)
  | [] => [p]
  | q :: rest => if pathLe p.1 q.1 then p :: q :: rest else q :: insertSorted p rest

/-- Sort the located files by path (modelling `sorted(cargo_files)`). -/
def sortFiles : List (List Char × List Line) → List (List Char × List Line)
  | [] => []
  | p :: rest => insertSorted p (sortFiles rest)

/-- The observable outcome of `main`: whether the missing-directory
diagnostic was printed, which files were read, which writes happened
(path with new content), and the process exit code (`main` returns `None`
in both branches, so the interpreter exits with status 0). -/
structure MainRun where
  dirError : Bool
  readPaths : List (List Char)
  writes : List (List Char × List Line)
  exitCode : Nat
deriving DecidableEq

/-- `main`: if the `crates/` directory does not exist, print the error and
return; otherwise process each located manifest in sorted path order. -/
def mainRun (dep : Line) (feats : List Line) (cratesDirExists : Bool)
    (files : List (List Char × List Line)) : MainRun :=
  if !cratesDirExists then
    { dirError := true, readPaths := [], writes := [], exitCode := 0 }
  else
    let sorted := sortFiles files
    { dirError := false,
      readPaths := sorted.map (fun f => f.1),
      writes := sorted.map (fun f => (f.1, (processFile dep feats f.2).written)),
      exitCode := 0 }

/-- Concrete manifest used by counterexamples and witnesses: a lone
dependencies header. -/
def exDepsOnly : List Line := [("[dependencies]\n").toList]

/-- Concrete manifest: a lone features header. -/
def exFeatOnly : List Line := [("[features]\n").toList]

/-- Concrete manifest: one ordinary line, no headers at all. -/
def exPlain : List Line := [("foo\n").toList]

end ZedScripts

namespace ZedScripts

/-! ### Prefix matching -/

theorem isPrefixOf_iff_take : ∀ (p l : Line), p.isPrefixOf l = true ↔ l.take p.length = p
  | [], l => by
    constructor
    · intro _
      cases l <;> rfl
    · intro _
      cases l <;> rfl
  | a :: p, [] => by
    constructor
    · intro h; exact absurd h (by simp [List.isPrefixOf])
    · intro h; exact absurd h (by simp)
  | a :: p, b :: t => by
    show (a == b && p.isPrefixOf t) = true ↔ b :: t.take p.length = a :: p
    rw [Bool.and_eq_true, beq_iff_eq, List.cons.injEq]
    constructor
    · rintro ⟨h1, h2⟩
      exact ⟨h1.symm, (isPrefixOf_iff_take p t).mp h2⟩
    · rintro ⟨h1, h2⟩
      exact ⟨h1.symm, (isPrefixOf_iff_take p t).mpr h2⟩

theorem isFeatHdr_eq_false_of_isDepsHdr {l : Line} (h : isDepsHdr l = true) :
    isFeatHdr l = false := by
  cases hf : isFeatHdr l with
  | false => rfl
  | true =>
    exfalso
    have hd14 : l.take 14 = ("[dependencies]").toList :=
      (isPrefixOf_iff_take (("[dependencies]").toList) l).mp h
    have hf10 : l.take 10 = ("[features]").toList :=
      (isPrefixOf_iff_take (("[features]").toList) l).mp hf
    have key : ("[features]").toList = ("[dependencies]").toList.take 10 := by
      rw [← hd14, List.take_take, show min 10 14 = 10 from by decide]
      exact hf10.symm
    exact absurd key (by decide)

theorem isSectionHdr_of_isDepsHdr {l : Line} (h : isDepsHdr l = true) :
    isSectionHdr l = true := by
  have hd14 : l.take 14 = ("[dependencies]").toList :=
    (isPrefixOf_iff_take (("[dependencies]").toList) l).mp h
  have h1 : l.take 1 = ("[").toList := by
    rw [show ("[").toList = ("[dependencies]").toList.take 1 from by decide, ← hd14,
      List.take_take, show min 1 14 = 1 from by decide]
  exact (isPrefixOf_iff_take (("[").toList) l).mpr h1

theorem isSectionHdr_of_isFeatHdr {l : Line} (h : isFeatHdr l = true) :
    isSectionHdr l = true := by
  have hf10 : l.take 10 = ("[features]").toList :=
    (isPrefixOf_iff_take (("[features]").toList) l).mp h
  have h1 : l.take 1 = ("[").toList := by
    rw [show ("[").toList = ("[features]").toList.take 1 from by decide, ← hf10,
      List.take_take, show min 1 10 = 1 from by decide]
  exact (isPrefixOf_iff_take (("[").toList) l).mpr h1

theorem isDepsHdr_eq_false_of_not_section {l : Line} (h : isSectionHdr l = false) :
    isDepsHdr l = false := by
  cases hd : isDepsHdr l with
  | false => rfl
  | true =>
    have := isSectionHdr_of_isDepsHdr hd
    rw [h] at this
    exact absurd this (by decide)

theorem isFeatHdr_eq_false_of_not_section {l : Line} (h : isSectionHdr l = false) :
    isFeatHdr l = false := by
  cases hd : isFeatHdr l with
  | false => rfl
  | true =>
    have := isSectionHdr_of_isFeatHdr hd
    rw [h] at this
    exact absurd this (by decide)

/-! ### Cleanup pass -/

theorem cleanupPass_fst (dep : Line) (feats : List Line) (x : List Line) :
    (cleanupPass dep feats x).1 = x.filter (keepLine dep feats) := by
  induction x with
  | nil => rfl
  | cons l rest ih =>
    simp only [cleanupPass]
    cases h : (l == dep || feats.contains l) with
    | true =>
      have h' : l = dep ∨ l ∈ feats := by simpa using h
      simp [h, List.filter_cons, keepLine, ih]
      rw [if_neg (fun hc => h'.elim hc.1 hc.2)]
    | false =>
      have h' : ¬(l = dep ∨ l ∈ feats) := by simpa using h
      simp [h, List.filter_cons, keepLine, ih]
      rw [if_pos ⟨fun he => h' (Or.inl he), fun hm => h' (Or.inr hm)⟩]

theorem cleanupPass_snd (dep : Line) (feats : List Line) (x : List Line) :
    (cleanupPass dep feats x).2 = (cleanupPass dep feats x).1.any isFeatHdr := by
  induction x with
  | nil => rfl
  | cons l rest ih =>
    simp only [cleanupPass]
    cases h : (l == dep || feats.contains l) with
    | true => simp [h, ih]
    | false => simp [h, ih]

theorem mem_cleaned {dep : Line} {feats : List Line} {l : Line} {x : List Line}
    (h : l ∈ (cleanupPass dep feats x).1) :
    keepLine dep feats l = true ∧ l ∈ x := by
  rw [cleanupPass_fst] at h
  have := List.mem_filter.mp h
  exact ⟨this.2, this.1⟩

theorem filter_keepLine_idem (dep : Line) (feats : List Line) (x : List Line) :
    (x.filter (keepLine dep feats)).filter (keepLine dep feats)
      = x.filter (keepLine dep feats) := by
  rw [List.filter_filter]
  congr 1
  funext a
  exact Bool.and_self _

theorem cleanupPass_of_cleaned (dep : Line) (feats : List Line) (x : List Line) :
    cleanupPass dep feats (cleanupPass dep feats x).1
      = ((cleanupPass dep feats x).1, (cleanupPass dep feats x).2) := by
  have h1 : (cleanupPass dep feats (cleanupPass dep feats x).1).1
      = (cleanupPass dep feats x).1 := by
    rw [cleanupPass_fst, cleanupPass_fst, filter_keepLine_idem]
  have h2 : (cleanupPass dep feats (cleanupPass dep feats x).1).2
      = (cleanupPass dep feats x).2 := by
    rw [cleanupPass_snd, h1, cleanupPass_snd]
  calc cleanupPass dep feats (cleanupPass dep feats x).1
      = ((cleanupPass dep feats (cleanupPass dep feats x).1).1,
         (cleanupPass dep feats (cleanupPass dep feats x).1).2) := rfl
    _ = ((cleanupPass dep feats x).1, (cleanupPass dep feats x).2) := by rw [h1, h2]

theorem any_filter_eq {p q : Line → Bool} (h : ∀ l, q l = true → p l = true)
    (x : List Line) : (x.filter p).any q = x.any q := by
  induction x with
  | nil => rfl
  | cons l rest ih =>
    by_cases hp : p l = true
    · simp [List.filter_cons, hp, ih]
    · simp only [Bool.not_eq_true] at hp
      have hq : q l = false := by
        cases hql : q l with
        | false => rfl
        | true => rw [h l hql] at hp; exact absurd hp (by decide)
      simp [List.filter_cons, hp, hq, ih]

theorem countP_filter_eq {p q : Line → Bool} (h : ∀ l, q l = true → p l = true)
    (x : List Line) : (x.filter p).countP q = x.countP q := by
  induction x with
  | nil => rfl
  | cons l rest ih =>
    by_cases hp : p l = true
    · simp [List.filter_cons, hp, List.countP_cons, ih]
    · simp only [Bool.not_eq_true] at hp
      have hq : q l = false := by
        cases hql : q l with
        | false => rfl
        | true => rw [h l hql] at hp; exact absurd hp (by decide)
      simp [List.filter_cons, hp, hq, List.countP_cons, ih]

end ZedScripts

namespace ZedScripts

/-! ### Insertion pass: branch unfolding -/

theorem isDepsHdr_eq_false_of_isFeatHdr {l : Line} (h : isFeatHdr l = true) :
    isDepsHdr l = false := by
  cases hd : isDepsHdr l with
  | false => rfl
  | true =>
    have := isFeatHdr_eq_false_of_isDepsHdr hd
    rw [h] at this
    exact absurd this (by decide)

theorem insertLoop_cons_deps (dep : Line) (feats : List Line) (fe fa : Bool)
    {l : Line} (rest : List Line) (h1 : isDepsHdr l = true) :
    insertLoop dep feats fe false fa (l :: rest)
      = (l :: dep :: (insertLoop dep feats fe true fa rest).1,
         (insertLoop dep feats fe true fa rest).2) := by
  simp only [insertLoop]
  rw [if_pos (by simp [h1])]

theorem insertLoop_cons_feat (dep : Line) (feats : List Line) (fe da : Bool)
    {l : Line} (rest : List Line) (h1 : isFeatHdr l = true) :
    insertLoop dep feats fe da false (l :: rest)
      = (l :: (feats ++ (insertLoop dep feats fe da true rest).1),
         (insertLoop dep feats fe da true rest).2) := by
  have h2 : isDepsHdr l = false := isDepsHdr_eq_false_of_isFeatHdr h1
  simp only [insertLoop]
  rw [if_neg (by simp [h2]), if_pos (by simp [h1])]

theorem insertLoop_cons_synth (dep : Line) (feats : List Line)
    {l : Line} (rest : List Line) (h1 : isSectionHdr l = true)
    (h2 : isDepsHdr l = false) (h3 : isFeatHdr l = false) :
    insertLoop dep feats false true false (l :: rest)
      = (blankLine :: featuresHdrLine
           :: (feats ++ l :: (insertLoop dep feats false true true rest).1),
         (insertLoop dep feats false true true rest).2) := by
  simp only [insertLoop]
  rw [if_neg (by simp [h2]), if_neg (by simp [h3]), if_pos (by simp [h1, h2])]

theorem insertLoop_cons_skip (dep : Line) (feats : List Line) (fe da fa : Bool)
    {l : Line} (rest : List Line)
    (h1 : (isDepsHdr l && !da) = false)
    (h2 : (isFeatHdr l && !fa) = false)
    (h3 : (isSectionHdr l && !isDepsHdr l && da && !fe && !fa) = false) :
    insertLoop dep feats fe da fa (l :: rest)
      = (l :: (insertLoop dep feats fe da fa rest).1,
         (insertLoop dep feats fe da fa rest).2) := by
  simp only [insertLoop]
  rw [if_neg (by simp [h1]), if_neg (by simp [h2]), if_neg (by simp [h3])]

/-- Exhaustive case analysis for one step of the insertion loop: a cons step
is a dependency insertion, a feature-block insertion, a synthesized features
section, or a plain copy. -/
theorem insertLoop_cons_cases (dep : Line) (feats : List Line) (fe da fa : Bool)
    (l : Line) (rest : List Line) :
    (da = false ∧ isDepsHdr l = true ∧
      insertLoop dep feats fe da fa (l :: rest)
        = (l :: dep :: (insertLoop dep feats fe true fa rest).1,
           (insertLoop dep feats fe true fa rest).2))
    ∨ (fa = false ∧ isFeatHdr l = true ∧
      insertLoop dep feats fe da fa (l :: rest)
        = (l :: (feats ++ (insertLoop dep feats fe da true rest).1),
           (insertLoop dep feats fe da true rest).2))
    ∨ (da = true ∧ fa = false ∧ fe = false ∧ isSectionHdr l = true
        ∧ isDepsHdr l = false ∧ isFeatHdr l = false ∧
      insertLoop dep feats fe da fa (l :: rest)
        = (blankLine :: featuresHdrLine
             :: (feats ++ l :: (insertLoop dep feats fe da true rest).1),
           (insertLoop dep feats fe da true rest).2))
    ∨ ((isDepsHdr l = false ∨ da = true) ∧ (isFeatHdr l = false ∨ fa = true) ∧
      insertLoop dep feats fe da fa (l :: rest)
        = (l :: (insertLoop dep feats fe da fa rest).1,
           (insertLoop dep feats fe da fa rest).2)) := by
  cases hd : isDepsHdr l with
  | true =>
    cases da with
    | false =>
      exact Or.inl ⟨rfl, rfl, insertLoop_cons_deps dep feats fe fa rest hd⟩
    | true =>
      refine Or.inr (Or.inr (Or.inr ⟨Or.inr rfl,
        Or.inl (isFeatHdr_eq_false_of_isDepsHdr hd), ?_⟩))
      exact insertLoop_cons_skip dep feats fe true fa rest (by simp)
        (by simp [isFeatHdr_eq_false_of_isDepsHdr hd]) (by simp [hd])
  | false =>
    cases hf : isFeatHdr l with
    | true =>
      cases fa with
      | false =>
        exact Or.inr (Or.inl ⟨rfl, rfl, insertLoop_cons_feat dep feats fe da rest hf⟩)
      | true =>
        refine Or.inr (Or.inr (Or.inr ⟨Or.inl rfl, Or.inr rfl, ?_⟩))
        exact insertLoop_cons_skip dep feats fe da true rest (by simp [hd])
          (by simp) (by simp)
    | false =>
      cases da with
      | false =>
        refine Or.inr (Or.inr (Or.inr ⟨Or.inl rfl, Or.inl rfl, ?_⟩))
        exact insertLoop_cons_skip dep feats fe false fa rest (by simp [hd])
          (by simp [hf]) (by simp)
      | true =>
        cases fa with
        | true =>
          refine Or.inr (Or.inr (Or.inr ⟨Or.inr rfl, Or.inl rfl, ?_⟩))
          exact insertLoop_cons_skip dep feats fe true true rest (by simp)
            (by simp [hf]) (by simp)
        | false =>
          cases fe with
          | true =>
            refine Or.inr (Or.inr (Or.inr ⟨Or.inl rfl, Or.inl rfl, ?_⟩))
            exact insertLoop_cons_skip dep feats true true false rest (by simp)
              (by simp [hf]) (by simp)
          | false =>
            cases hs : isSectionHdr l with
            | true =>
              exact Or.inr (Or.inr (Or.inl ⟨rfl, rfl, rfl, rfl, rfl, rfl,
                insertLoop_cons_synth dep feats rest hs hd hf⟩))
            | false =>
              refine Or.inr (Or.inr (Or.inr ⟨Or.inl rfl, Or.inl rfl, ?_⟩))
              exact insertLoop_cons_skip dep feats false true false rest (by simp)
                (by simp [hf]) (by simp [hs])

end ZedScripts

namespace ZedScripts

/-! ### Insertion pass: flag and shape lemmas -/

theorem insertLoop_true_true (dep : Line) (feats : List Line) (fe : Bool)
    (x : List Line) : insertLoop dep feats fe true true x = (x, true, true) := by
  induction x with
  | nil => rfl
  | cons l rest ih =>
    rcases insertLoop_cons_cases dep feats fe true true l rest with
      ⟨hda, _, _⟩ | ⟨hfa, _, _⟩ | ⟨_, hfa, _⟩ | ⟨_, _, heq⟩
    · exact absurd hda (by decide)
    · exact absurd hfa (by decide)
    · exact absurd hfa (by decide)
    · rw [heq, ih]

theorem insertLoop_fa (dep : Line) (feats : List Line) (fe : Bool)
    (x : List Line) : ∀ da : Bool, (insertLoop dep feats fe da true x).2.2 = true := by
  induction x with
  | nil => intro da; rfl
  | cons l rest ih =>
    intro da
    rcases insertLoop_cons_cases dep feats fe da true l rest with
      ⟨_, _, heq⟩ | ⟨hfa, _, _⟩ | ⟨_, hfa, _⟩ | ⟨_, _, heq⟩
    · rw [heq]; exact ih true
    · exact absurd hfa (by decide)
    · exact absurd hfa (by decide)
    · rw [heq]; exact ih da

theorem insertLoop_da (dep : Line) (feats : List Line) (fe : Bool)
    (x : List Line) : ∀ da fa : Bool,
    (insertLoop dep feats fe da fa x).2.1 = (da || x.any isDepsHdr) := by
  induction x with
  | nil => intro da fa; simp [insertLoop]
  | cons l rest ih =>
    intro da fa
    rcases insertLoop_cons_cases dep feats fe da fa l rest with
      ⟨hda, hd, heq⟩ | ⟨_, hf, heq⟩ | ⟨hda, _, _, _, hd, _, heq⟩ | ⟨hor, _, heq⟩
    · subst hda; rw [heq]; simp [ih, hd]
    · rw [heq]; simp [ih, isDepsHdr_eq_false_of_isFeatHdr hf]
    · subst hda; rw [heq]; simp [ih, hd]
    · rw [heq]
      rcases hor with hd | hda
      · simp [ih, hd]
      · subst hda; simp [ih]

theorem insertLoop_fa_of_any (dep : Line) (feats : List Line) (fe : Bool)
    (x : List Line) : ∀ da fa : Bool, x.any isFeatHdr = true →
    (insertLoop dep feats fe da fa x).2.2 = true := by
  induction x with
  | nil => intro da fa h; simp at h
  | cons l rest ih =>
    intro da fa h
    rcases insertLoop_cons_cases dep feats fe da fa l rest with
      ⟨_, hd, heq⟩ | ⟨_, _, heq⟩ | ⟨_, _, _, _, _, _, heq⟩ | ⟨_, hor, heq⟩
    · rw [heq]
      have hfl : isFeatHdr l = false := isFeatHdr_eq_false_of_isDepsHdr hd
      rw [List.any_cons, hfl, Bool.false_or] at h
      exact ih true fa h
    · rw [heq]; exact insertLoop_fa dep feats fe rest da
    · rw [heq]; exact insertLoop_fa dep feats fe rest _
    · rw [heq]
      rcases hor with hfl | hfa
      · rw [List.any_cons, hfl, Bool.false_or] at h
        exact ih da fa h
      · subst hfa; exact insertLoop_fa dep feats fe rest da

theorem insertLoop_append_nohdr (dep : Line) (feats : List Line) (fe fa : Bool) :
    ∀ (A B : List Line), (∀ l ∈ A, isDepsHdr l = false ∧ isFeatHdr l = false) →
    insertLoop dep feats fe false fa (A ++ B)
      = (A ++ (insertLoop dep feats fe false fa B).1,
         (insertLoop dep feats fe false fa B).2) := by
  intro A
  induction A with
  | nil => intro B _; rfl
  | cons a A ih =>
    intro B h
    have ha := h a (List.mem_cons_self a A)
    rcases insertLoop_cons_cases dep feats fe false fa a (A ++ B) with
      ⟨_, hd, _⟩ | ⟨_, hf, _⟩ | ⟨hda, _, _⟩ | ⟨_, _, heq⟩
    · rw [ha.1] at hd; exact absurd hd (by decide)
    · rw [ha.2] at hf; exact absurd hf (by decide)
    · exact absurd hda (by decide)
    · rw [List.cons_append, heq, ih B (fun m hm => h m (List.mem_cons_of_mem a hm))]
      rfl

theorem insertLoop_append_mid (dep : Line) (feats : List Line) :
    ∀ (A B : List Line),
    (∀ l ∈ A, isFeatHdr l = false ∧ (isSectionHdr l = true → isDepsHdr l = true)) →
    insertLoop dep feats false true false (A ++ B)
      = (A ++ (insertLoop dep feats false true false B).1,
         (insertLoop dep feats false true false B).2) := by
  intro A
  induction A with
  | nil => intro B _; rfl
  | cons a A ih =>
    intro B h
    have ha := h a (List.mem_cons_self a A)
    rcases insertLoop_cons_cases dep feats false true false a (A ++ B) with
      ⟨hda, _, _⟩ | ⟨_, hf, _⟩ | ⟨_, _, _, hs, hd, _, _⟩ | ⟨_, _, heq⟩
    · exact absurd hda (by decide)
    · rw [ha.1] at hf; exact absurd hf (by decide)
    · rw [ha.2 hs] at hd; exact absurd hd (by decide)
    · rw [List.cons_append, heq, ih B (fun m hm => h m (List.mem_cons_of_mem a hm))]
      rfl

theorem insertLoop_filter (dep : Line) (feats : List Line) (x : List Line) :
    ∀ da fa : Bool,
    ((insertLoop dep feats true da fa x).1).filter (keepLine dep feats)
      = x.filter (keepLine dep feats) := by
  induction x with
  | nil => intro da fa; rfl
  | cons l rest ih =>
    intro da fa
    have hkdep : keepLine dep feats dep = false := by simp [keepLine]
    have hkfeats : feats.filter (keepLine dep feats) = [] :=
      List.filter_eq_nil_iff.mpr (fun a ha => by simp [keepLine, ha])
    rcases insertLoop_cons_cases dep feats true da fa l rest with
      ⟨_, _, heq⟩ | ⟨_, _, heq⟩ | ⟨_, _, hfe, _⟩ | ⟨_, _, heq⟩
    · rw [heq]; simp [List.filter_cons, hkdep, ih]
    · rw [heq]; simp [List.filter_cons, List.filter_append, hkfeats, ih]
    · exact absurd hfe (by decide)
    · rw [heq]; simp [List.filter_cons, ih]

theorem insertLoop_mem_featHdr (dep : Line) (feats : List Line) (x : List Line) :
    ∀ da : Bool, (∀ l ∈ x, isFeatHdr l = false) →
    (insertLoop dep feats false da false x).2.2 = true →
    featuresHdrLine ∈ (insertLoop dep feats false da false x).1 := by
  induction x with
  | nil => intro da _ hfa; simp [insertLoop] at hfa
  | cons l rest ih =>
    intro da h hfa
    have h' : ∀ m ∈ rest, isFeatHdr m = false :=
      fun m hm => h m (List.mem_cons_of_mem l hm)
    rcases insertLoop_cons_cases dep feats false da false l rest with
      ⟨hda, _, heq⟩ | ⟨_, hf, _⟩ | ⟨_, _, _, _, _, _, heq⟩ | ⟨_, _, heq⟩
    · subst hda
      rw [heq] at hfa ⊢
      exact List.mem_cons_of_mem l (List.mem_cons_of_mem dep (ih true h' hfa))
    · rw [h l (List.mem_cons_self l rest)] at hf
      exact absurd hf (by decide)
    · rw [heq]
      exact List.mem_cons_of_mem blankLine (List.mem_cons_self featuresHdrLine _)
    · rw [heq] at hfa ⊢
      exact List.mem_cons_of_mem l (ih da h' hfa)

theorem insertLoop_sublist (dep : Line) (feats : List Line) (fe : Bool)
    (x : List Line) : ∀ da fa : Bool,
    List.Sublist x (insertLoop dep feats fe da fa x).1 := by
  induction x with
  | nil => intro da fa; exact List.nil_sublist _
  | cons l rest ih =>
    intro da fa
    rcases insertLoop_cons_cases dep feats fe da fa l rest with
      ⟨_, _, heq⟩ | ⟨_, _, heq⟩ | ⟨_, _, _, _, _, _, heq⟩ | ⟨_, _, heq⟩
    · rw [heq]
      exact List.Sublist.cons₂ l (List.Sublist.cons dep (ih true fa))
    · rw [heq]
      exact List.Sublist.cons₂ l ((ih da true).trans (List.sublist_append_right feats _))
    · rw [heq]
      exact List.Sublist.cons blankLine (List.Sublist.cons featuresHdrLine
        ((List.Sublist.cons₂ l (ih da true)).trans (List.sublist_append_right feats _)))
    · rw [heq]
      exact List.Sublist.cons₂ l (ih da fa)

end ZedScripts

namespace ZedScripts

/-! ### Insertion pass: counting lemmas -/

theorem featHdr_featuresHdrLine : isFeatHdr featuresHdrLine = true := by decide

theorem featHdr_blankLine : isFeatHdr blankLine = false := by decide

theorem blankLine_ne_featuresHdrLine : blankLine ≠ featuresHdrLine := by decide

theorem insertLoop_count_dep (dep : Line) (feats : List Line) (fe : Bool)
    (hnf : dep ∉ feats) (hnb : dep ≠ blankLine) (hnh : dep ≠ featuresHdrLine)
    (x : List Line) : ∀ da fa : Bool, (∀ l ∈ x, l ≠ dep) →
    ((insertLoop dep feats fe da fa x).1).count dep
      = (if ((insertLoop dep feats fe da fa x).2.1 && !da) = true then 1 else 0) := by
  have hnb' : blankLine ≠ dep := fun e => hnb e.symm
  have hnh' : featuresHdrLine ≠ dep := fun e => hnh e.symm
  have hcf : feats.count dep = 0 := List.count_eq_zero.mpr hnf
  induction x with
  | nil => intro da fa _; simp [insertLoop]
  | cons l rest ih =>
    intro da fa h
    have hl : l ≠ dep := h l (List.mem_cons_self l rest)
    have hl' : dep ≠ l := fun e => hl e.symm
    have h' : ∀ m ∈ rest, m ≠ dep := fun m hm => h m (List.mem_cons_of_mem l hm)
    rcases insertLoop_cons_cases dep feats fe da fa l rest with
      ⟨hda, hd, heq⟩ | ⟨hfa, _, heq⟩ | ⟨hda, hfa, _, _, _, _, heq⟩ | ⟨_, _, heq⟩
    · subst hda
      rw [heq]
      have h1 : (insertLoop dep feats fe true fa rest).2.1 = true := by
        rw [insertLoop_da]; rfl
      have h2 : ((insertLoop dep feats fe true fa rest).1).count dep = 0 := by
        simpa [h1] using ih true fa h'
      simp [List.count_cons, hl, hl', h1, h2]
    · subst hfa
      rw [heq]
      have h2 := ih da true h'
      simp only [Bool.not_true, Bool.and_false] at h2
      simp [List.count_cons, List.count_append, hl, hl', hcf, ih da true h']
    · subst hda; subst hfa
      rw [heq]
      have h2 := ih true true h'
      simp only [Bool.not_true, Bool.and_false] at h2
      simp [List.count_cons, List.count_append, hl, hl', hnb', hnh', hcf, h2]
    · rw [heq]
      simp [List.count_cons, hl, hl', ih da fa h']

theorem insertLoop_count_blank_feTrue (dep : Line) (feats : List Line)
    (hnb : dep ≠ blankLine) (x : List Line) : ∀ da fa : Bool,
    (∀ l ∈ x, l ≠ blankLine) →
    ((insertLoop dep feats true da fa x).1).count blankLine
      = (if ((insertLoop dep feats true da fa x).2.2 && !fa) = true
          then feats.count blankLine else 0) := by
  have hnb' : dep ≠ blankLine := hnb
  induction x with
  | nil => intro da fa _; simp [insertLoop]
  | cons l rest ih =>
    intro da fa h
    have hl : l ≠ blankLine := h l (List.mem_cons_self l rest)
    have hl' : blankLine ≠ l := fun e => hl e.symm
    have h' : ∀ m ∈ rest, m ≠ blankLine := fun m hm => h m (List.mem_cons_of_mem l hm)
    rcases insertLoop_cons_cases dep feats true da fa l rest with
      ⟨hda, _, heq⟩ | ⟨hfa, _, heq⟩ | ⟨_, _, hfe, _⟩ | ⟨_, _, heq⟩
    · rw [heq]
      have hnbs : blankLine ≠ dep := fun e => hnb e.symm
      simp [List.count_cons, hl, hl', hnb, hnbs, ih true fa h']
    · subst hfa
      rw [heq]
      have h2 := ih da true h'
      simp only [Bool.not_true, Bool.and_false] at h2
      have h3 : (insertLoop dep feats true da true rest).2.2 = true :=
        insertLoop_fa dep feats true rest da
      simp [List.count_cons, List.count_append, hl, hl', h2, h3]
    · exact absurd hfe (by decide)
    · rw [heq]
      simp [List.count_cons, hl, hl', ih da fa h']

theorem insertLoop_count_blank_feFalse (dep : Line) (feats : List Line)
    (hnb : dep ≠ blankLine) (x : List Line) : ∀ da fa : Bool,
    (∀ l ∈ x, l ≠ blankLine ∧ isFeatHdr l = false) →
    ((insertLoop dep feats false da fa x).1).count blankLine
      = (if ((insertLoop dep feats false da fa x).2.2 && !fa) = true
          then feats.count blankLine + 1 else 0) := by
  induction x with
  | nil => intro da fa _; simp [insertLoop]
  | cons l rest ih =>
    intro da fa h
    have hl : l ≠ blankLine := (h l (List.mem_cons_self l rest)).1
    have hl' : blankLine ≠ l := fun e => hl e.symm
    have hlf : isFeatHdr l = false := (h l (List.mem_cons_self l rest)).2
    have h' : ∀ m ∈ rest, m ≠ blankLine ∧ isFeatHdr m = false :=
      fun m hm => h m (List.mem_cons_of_mem l hm)
    rcases insertLoop_cons_cases dep feats false da fa l rest with
      ⟨hda, _, heq⟩ | ⟨_, hf, _⟩ | ⟨hda, hfa, _, _, _, _, heq⟩ | ⟨_, _, heq⟩
    · rw [heq]
      have hnbs : blankLine ≠ dep := fun e => hnb e.symm
      simp [List.count_cons, hl, hl', hnb, hnbs, ih true fa h']
    · rw [hlf] at hf; exact absurd hf (by decide)
    · subst hda; subst hfa
      rw [heq]
      have h2 := ih true true h'
      simp only [Bool.not_true, Bool.and_false] at h2
      have h3 : (insertLoop dep feats false true true rest).2.2 = true :=
        insertLoop_fa dep feats false rest true
      have hfb : featuresHdrLine ≠ blankLine := fun e => blankLine_ne_featuresHdrLine e.symm
      simp [List.count_cons, List.count_append, hl, hl', h2, h3, hfb,
        blankLine_ne_featuresHdrLine]
    · rw [heq]
      simp [List.count_cons, hl, hl', ih da fa h']

theorem insertLoop_countP_featHdr_faTrue (dep : Line) (feats : List Line) (fe : Bool)
    (hdf : isFeatHdr dep = false) (x : List Line) : ∀ da : Bool,
    (∀ l ∈ x, isFeatHdr l = false) →
    ((insertLoop dep feats fe da true x).1).countP isFeatHdr = 0 := by
  induction x with
  | nil => intro da _; rfl
  | cons l rest ih =>
    intro da h
    have hl : isFeatHdr l = false := h l (List.mem_cons_self l rest)
    have h' : ∀ m ∈ rest, isFeatHdr m = false :=
      fun m hm => h m (List.mem_cons_of_mem l hm)
    rcases insertLoop_cons_cases dep feats fe da true l rest with
      ⟨_, _, heq⟩ | ⟨hfa, _, _⟩ | ⟨_, hfa, _⟩ | ⟨_, _, heq⟩
    · rw [heq]; simp [List.countP_cons, hl, hdf, ih true h']
    · exact absurd hfa (by decide)
    · exact absurd hfa (by decide)
    · rw [heq]; simp [List.countP_cons, hl, ih da h']

theorem insertLoop_countP_featHdr_keepfa (dep : Line) (feats : List Line) (fe : Bool)
    (hdf : isFeatHdr dep = false) (x : List Line) : ∀ da fa : Bool,
    (∀ l ∈ x, isFeatHdr l = false) →
    (insertLoop dep feats fe da fa x).2.2 = false →
    ((insertLoop dep feats fe da fa x).1).countP isFeatHdr = 0 := by
  induction x with
  | nil => intro da fa _ _; rfl
  | cons l rest ih =>
    intro da fa h hfa
    have hl : isFeatHdr l = false := h l (List.mem_cons_self l rest)
    have h' : ∀ m ∈ rest, isFeatHdr m = false :=
      fun m hm => h m (List.mem_cons_of_mem l hm)
    rcases insertLoop_cons_cases dep feats fe da fa l rest with
      ⟨_, _, heq⟩ | ⟨_, hf, _⟩ | ⟨_, _, _, _, _, _, heq⟩ | ⟨_, _, heq⟩
    · rw [heq] at hfa ⊢
      simp [List.countP_cons, hl, hdf, ih true fa h' hfa]
    · rw [hl] at hf; exact absurd hf (by decide)
    · rw [heq] at hfa
      exact absurd ((insertLoop_fa dep feats fe rest da).symm.trans hfa) (by decide)
    · rw [heq] at hfa ⊢
      simp [List.countP_cons, hl, ih da fa h' hfa]

/-! ### Insertion pass: placement of the feature block -/

theorem insertLoop_decomp_feat (dep : Line) (feats : List Line)
    (hdf : isFeatHdr dep = false) :
    ∀ (A : List Line) (hdr : Line) (B : List Line) (da : Bool),
    (∀ l ∈ A, isFeatHdr l = false) → isFeatHdr hdr = true →
    ∃ (A' : List Line) (da' : Bool),
      (insertLoop dep feats true da false (A ++ hdr :: B)).1
        = A' ++ hdr :: (feats ++ (insertLoop dep feats true da' true B).1)
      ∧ (∀ l ∈ A', isFeatHdr l = false) := by
  intro A
  induction A with
  | nil =>
    intro hdr B da _ hh
    rcases insertLoop_cons_cases dep feats true da false hdr B with
      ⟨_, hd, _⟩ | ⟨_, _, heq⟩ | ⟨_, _, hfe, _⟩ | ⟨_, hor, _⟩
    · rw [isFeatHdr_eq_false_of_isDepsHdr hd] at hh
      exact absurd hh (by decide)
    · exact ⟨[], da, by simp [heq], fun m hm => absurd hm (List.not_mem_nil m)⟩
    · exact absurd hfe (by decide)
    · rcases hor with h1 | h2
      · rw [h1] at hh; exact absurd hh (by decide)
      · exact absurd h2 (by decide)
  | cons a A ih =>
    intro hdr B da hA hh
    have ha : isFeatHdr a = false := hA a (List.mem_cons_self a A)
    have hA' : ∀ l ∈ A, isFeatHdr l = false :=
      fun m hm => hA m (List.mem_cons_of_mem a hm)
    rcases insertLoop_cons_cases dep feats true da false a (A ++ hdr :: B) with
      ⟨hda, _, heq⟩ | ⟨_, hf, _⟩ | ⟨_, _, hfe, _⟩ | ⟨_, _, heq⟩
    · subst hda
      obtain ⟨A', da', e, hA'f⟩ := ih hdr B true hA' hh
      refine ⟨a :: dep :: A', da', ?_, ?_⟩
      · rw [List.cons_append, heq, e]
        rfl
      · intro m hm
        rcases List.mem_cons.mp hm with rfl | hm2
        · exact ha
        · rcases List.mem_cons.mp hm2 with rfl | hm3
          · exact hdf
          · exact hA'f m hm3
    · rw [ha] at hf; exact absurd hf (by decide)
    · exact absurd hfe (by decide)
    · obtain ⟨A', da', e, hA'f⟩ := ih hdr B da hA' hh
      refine ⟨a :: A', da', ?_, ?_⟩
      · rw [List.cons_append, heq, e]
        rfl
      · intro m hm
        rcases List.mem_cons.mp hm with rfl | hm2
        · exact ha
        · exact hA'f m hm2

theorem insertLoop_decomp_synth (dep : Line) (feats : List Line)
    (hdf : isFeatHdr dep = false) (x : List Line) : ∀ da : Bool,
    (∀ l ∈ x, isFeatHdr l = false) →
    (insertLoop dep feats false da false x).2.2 = true →
    ∃ (A' C' : List Line),
      (insertLoop dep feats false da false x).1
        = A' ++ featuresHdrLine :: (feats ++ C')
      ∧ (∀ l ∈ A', isFeatHdr l = false) ∧ C'.countP isFeatHdr = 0 := by
  induction x with
  | nil => intro da _ hfa; simp [insertLoop] at hfa
  | cons l rest ih =>
    intro da h hfa
    have hl : isFeatHdr l = false := h l (List.mem_cons_self l rest)
    have h' : ∀ m ∈ rest, isFeatHdr m = false :=
      fun m hm => h m (List.mem_cons_of_mem l hm)
    rcases insertLoop_cons_cases dep feats false da false l rest with
      ⟨hda, _, heq⟩ | ⟨_, hf, _⟩ | ⟨_, _, _, _, _, _, heq⟩ | ⟨_, _, heq⟩
    · subst hda
      rw [heq] at hfa ⊢
      obtain ⟨A', C', e, hA', hC'⟩ := ih true h' hfa
      refine ⟨l :: dep :: A', C', by rw [e]; rfl, ?_, hC'⟩
      intro m hm
      rcases List.mem_cons.mp hm with rfl | hm2
      · exact hl
      · rcases List.mem_cons.mp hm2 with rfl | hm3
        · exact hdf
        · exact hA' m hm3
    · rw [hl] at hf; exact absurd hf (by decide)
    · rw [heq]
      refine ⟨[blankLine], l :: (insertLoop dep feats false da true rest).1, rfl, ?_, ?_⟩
      · intro m hm
        rcases List.mem_cons.mp hm with rfl | hm2
        · exact featHdr_blankLine
        · exact absurd hm2 (List.not_mem_nil m)
      · simp [List.countP_cons, hl, insertLoop_countP_featHdr_faTrue dep feats false hdf rest da h']
    · rw [heq] at hfa ⊢
      obtain ⟨A', C', e, hA', hC'⟩ := ih da h' hfa
      refine ⟨l :: A', C', by rw [e]; rfl, ?_, hC'⟩
      intro m hm
      rcases List.mem_cons.mp hm with rfl | hm2
      · exact hl
      · exact hA' m hm2

end ZedScripts

namespace ZedScripts

/-! ### Full-transform lemmas -/

theorem insertionStage_da (dep : Line) (feats : List Line) (p : List Line × Bool) :
    (insertionStage dep feats p).2.1 = (insertLoop dep feats p.2 false false p.1).2.1 := by
  simp only [insertionStage]
  split <;> rfl

theorem insertionStage_fa (dep : Line) (feats : List Line) (p : List Line × Bool) :
    (insertionStage dep feats p).2.2
      = ((insertLoop dep feats p.2 false false p.1).2.2
          || ((insertLoop dep feats p.2 false false p.1).2.1 && !p.2)) := by
  simp only [insertionStage]
  split
  next hc =>
    cases h1 : (insertLoop dep feats p.2 false false p.1).2.1 <;>
      cases h2 : (insertLoop dep feats p.2 false false p.1).2.2 <;>
      cases h3 : p.2 <;> simp_all
  next hc =>
    cases h1 : (insertLoop dep feats p.2 false false p.1).2.1 <;>
      cases h2 : (insertLoop dep feats p.2 false false p.1).2.2 <;>
      cases h3 : p.2 <;> simp_all

theorem rewrite_congr_cleanup {dep : Line} {feats : List Line} {x y : List Line}
    (h : cleanupPass dep feats x = cleanupPass dep feats y) :
    rewrite dep feats x = rewrite dep feats y := by
  simp only [rewrite, process]
  rw [h]

theorem any_cleaned_deps (dep : Line) (feats : List Line) (x : List Line)
    (h1 : isDepsHdr dep = false) (h2 : ∀ f ∈ feats, isDepsHdr f = false) :
    ((cleanupPass dep feats x).1).any isDepsHdr = x.any isDepsHdr := by
  rw [cleanupPass_fst]
  apply any_filter_eq
  intro l hl
  simp only [keepLine, Bool.not_eq_true', Bool.or_eq_false_iff]
  refine ⟨?_, ?_⟩
  · cases he : (l == dep) with
    | false => rfl
    | true =>
      have : l = dep := beq_iff_eq.mp he
      rw [this, h1] at hl
      exact absurd hl (by decide)
  · cases hm : feats.contains l with
    | false => rfl
    | true =>
      have : l ∈ feats := by simpa using hm
      rw [h2 l this] at hl
      exact absurd hl (by decide)

/-- When the cleaned content has a features header, the rewritten output
cleans back to exactly the same cleaned content and flag: the inserted
lines are all stripped again and no features section is synthesized. -/
theorem cleanup_rewrite_of_fe (dep : Line) (feats : List Line) (x : List Line)
    (hfe : (cleanupPass dep feats x).2 = true) :
    cleanupPass dep feats (rewrite dep feats x) = cleanupPass dep feats x := by
  have hx : rewrite dep feats x
      = (insertLoop dep feats true false false (cleanupPass dep feats x).1).1 := by
    simp only [rewrite, process, insertionStage]
    rw [hfe]
    simp
  have h1 : (cleanupPass dep feats (rewrite dep feats x)).1
      = (cleanupPass dep feats x).1 := by
    rw [cleanupPass_fst dep feats (rewrite dep feats x), hx, insertLoop_filter,
      cleanupPass_fst dep feats x, filter_keepLine_idem]
  have h2 : (cleanupPass dep feats (rewrite dep feats x)).2
      = (cleanupPass dep feats x).2 := by
    rw [cleanupPass_snd, h1, cleanupPass_snd]
  calc cleanupPass dep feats (rewrite dep feats x)
      = ((cleanupPass dep feats (rewrite dep feats x)).1,
         (cleanupPass dep feats (rewrite dep feats x)).2) := rfl
    _ = ((cleanupPass dep feats x).1, (cleanupPass dep feats x).2) := by rw [h1, h2]

/-- When the cleaned content has neither a dependencies header nor a
features header, the insertion pass does nothing: the rewrite is exactly
the cleaned content. -/
theorem rewrite_eq_cleaned_of_no_hdrs (dep : Line) (feats : List Line) (x : List Line)
    (hfe : (cleanupPass dep feats x).2 = false)
    (hd : ∀ l ∈ (cleanupPass dep feats x).1, isDepsHdr l = false) :
    rewrite dep feats x = (cleanupPass dep feats x).1 := by
  have hfeat : ∀ l ∈ (cleanupPass dep feats x).1, isFeatHdr l = false := by
    intro l hl
    cases hfl : isFeatHdr l with
    | false => rfl
    | true =>
      have hone : ((cleanupPass dep feats x).1).any isFeatHdr = true :=
        List.any_eq_true.mpr ⟨l, hl, hfl⟩
      rw [cleanupPass_snd, hone] at hfe
      exact absurd hfe (by decide)
  have hloop : insertLoop dep feats false false false (cleanupPass dep feats x).1
      = ((cleanupPass dep feats x).1, false, false) := by
    have h := insertLoop_append_nohdr dep feats false false
      (cleanupPass dep feats x).1 [] (fun l hl => ⟨hd l hl, hfeat l hl⟩)
    simpa [insertLoop] using h
  simp only [rewrite, process, insertionStage]
  rw [hfe, hloop]
  simp

theorem rewrite_idem_of_fe (dep : Line) (feats : List Line) (x : List Line)
    (hfe : (cleanupPass dep feats x).2 = true) :
    rewrite dep feats (rewrite dep feats x) = rewrite dep feats x :=
  rewrite_congr_cleanup (cleanup_rewrite_of_fe dep feats x hfe)

theorem rewrite_idem_of_no_deps (dep : Line) (feats : List Line) (x : List Line)
    (hfe : (cleanupPass dep feats x).2 = false)
    (hany : ((cleanupPass dep feats x).1).any isDepsHdr = false) :
    rewrite dep feats (rewrite dep feats x) = rewrite dep feats x := by
  have hd : ∀ l ∈ (cleanupPass dep feats x).1, isDepsHdr l = false := by
    intro l hl
    cases h2 : isDepsHdr l with
    | false => rfl
    | true => exact absurd h2 ((List.any_eq_false.mp hany) l hl)
  have hy := rewrite_eq_cleaned_of_no_hdrs dep feats x hfe hd
  have hfe2 : (cleanupPass dep feats (cleanupPass dep feats x).1).2 = false := by
    rw [cleanupPass_of_cleaned]
    exact hfe
  have hd2 : ∀ l ∈ (cleanupPass dep feats (cleanupPass dep feats x).1).1,
      isDepsHdr l = false := by
    rw [cleanupPass_of_cleaned]
    exact hd
  rw [hy, rewrite_eq_cleaned_of_no_hdrs dep feats _ hfe2 hd2, cleanupPass_of_cleaned]

/-- If the cleaned content has a dependencies header but no features
header, the rewrite synthesizes a features section, so cleaning the output
finds a features header. -/
theorem cleanup2_snd_true_of_deps (dep : Line) (feats : List Line) (x : List Line)
    (hK : keepLine dep feats featuresHdrLine = true)
    (hfe : (cleanupPass dep feats x).2 = false)
    (hany : ((cleanupPass dep feats x).1).any isDepsHdr = true) :
    (cleanupPass dep feats (rewrite dep feats x)).2 = true := by
  have hnofeat : ∀ l ∈ (cleanupPass dep feats x).1, isFeatHdr l = false := by
    intro l hl
    cases hfl : isFeatHdr l with
    | false => rfl
    | true =>
      have hone : ((cleanupPass dep feats x).1).any isFeatHdr = true :=
        List.any_eq_true.mpr ⟨l, hl, hfl⟩
      rw [cleanupPass_snd, hone] at hfe
      exact absurd hfe (by decide)
  have hda : (insertLoop dep feats false false false (cleanupPass dep feats x).1).2.1
      = true := by
    rw [insertLoop_da]
    simp [hany]
  have hmem : featuresHdrLine ∈ rewrite dep feats x := by
    simp only [rewrite, process, insertionStage]
    rw [hfe]
    cases hfa : (insertLoop dep feats false false false (cleanupPass dep feats x).1).2.2 with
    | true =>
      simp only [hda, hfa, Bool.not_true, Bool.not_false, Bool.and_true, Bool.and_false,
        Bool.true_and, if_neg (by decide : ¬(false = true))]
      exact insertLoop_mem_featHdr dep feats _ false hnofeat hfa
    | false =>
      simp only [hda, hfa, Bool.not_true, Bool.not_false, Bool.and_true, Bool.true_and,
        if_pos rfl]
      exact List.mem_append.mpr (Or.inr
        (List.mem_cons_of_mem blankLine (List.mem_cons_self featuresHdrLine feats)))
  rw [cleanupPass_snd]
  apply List.any_eq_true.mpr
  refine ⟨featuresHdrLine, ?_, featHdr_featuresHdrLine⟩
  rw [cleanupPass_fst]
  exact List.mem_filter.mpr ⟨hmem, hK⟩

/-- Two applications of the rewrite reach a fixed point. -/
theorem rewrite_rewrite_fix (dep : Line) (feats : List Line) (x : List Line)
    (hK : keepLine dep feats featuresHdrLine = true) :
    rewrite dep feats (rewrite dep feats (rewrite dep feats x))
      = rewrite dep feats (rewrite dep feats x) := by
  cases hfey : (cleanupPass dep feats (rewrite dep feats x)).2 with
  | true => exact rewrite_idem_of_fe dep feats _ hfey
  | false =>
    cases hfe : (cleanupPass dep feats x).2 with
    | true =>
      have h := cleanup_rewrite_of_fe dep feats x hfe
      rw [h, hfe] at hfey
      exact absurd hfey (by decide)
    | false =>
      cases hany : ((cleanupPass dep feats x).1).any isDepsHdr with
      | true =>
        have h := cleanup2_snd_true_of_deps dep feats x hK hfe hany
        rw [h] at hfey
        exact absurd hfey (by decide)
      | false =>
        have hd : ∀ l ∈ (cleanupPass dep feats x).1, isDepsHdr l = false := by
          intro l hl
          cases h2 : isDepsHdr l with
          | false => rfl
          | true => exact absurd h2 ((List.any_eq_false.mp hany) l hl)
        have hy := rewrite_eq_cleaned_of_no_hdrs dep feats x hfe hd
        have hany2 : ((cleanupPass dep feats (rewrite dep feats x)).1).any isDepsHdr
            = false := by
          rw [hy, cleanupPass_of_cleaned]
          exact hany
        exact rewrite_idem_of_no_deps dep feats _ hfey hany2

end ZedScripts

namespace ZedScripts

/-! ### Process regimes -/

theorem process_eq_of_fe (dep : Line) (feats : List Line) (x : List Line)
    (hfe : (cleanupPass dep feats x).2 = true) :
    process dep feats x
      = insertLoop dep feats true false false (cleanupPass dep feats x).1 := by
  simp only [process, insertionStage]
  rw [hfe]
  simp

theorem process_eq_of_fa (dep : Line) (feats : List Line) (x : List Line)
    (hfe : (cleanupPass dep feats x).2 = false)
    (hfa : (insertLoop dep feats false false false (cleanupPass dep feats x).1).2.2
        = true) :
    process dep feats x
      = insertLoop dep feats false false false (cleanupPass dep feats x).1 := by
  simp only [process, insertionStage]
  rw [hfe]
  simp [hfa]

theorem process_eq_of_synth (dep : Line) (feats : List Line) (x : List Line)
    (hfe : (cleanupPass dep feats x).2 = false)
    (hfa : (insertLoop dep feats false false false (cleanupPass dep feats x).1).2.2
        = false)
    (hda : (insertLoop dep feats false false false (cleanupPass dep feats x).1).2.1
        = true) :
    process dep feats x
      = ((insertLoop dep feats false false false (cleanupPass dep feats x).1).1
          ++ blankLine :: featuresHdrLine :: feats, true, true) := by
  simp only [process, insertionStage]
  rw [hfe]
  simp [hfa, hda]

theorem process_eq_of_nothing (dep : Line) (feats : List Line) (x : List Line)
    (hfe : (cleanupPass dep feats x).2 = false)
    (hda : (insertLoop dep feats false false false (cleanupPass dep feats x).1).2.1
        = false) :
    process dep feats x
      = insertLoop dep feats false false false (cleanupPass dep feats x).1 := by
  simp only [process, insertionStage]
  rw [hfe]
  simp [hda]

/-! ### More cleanup corollaries -/

theorem any_cleaned (dep : Line) (feats : List Line) (p : Line → Bool)
    (h1 : p dep = false) (h2 : ∀ f ∈ feats, p f = false) (x : List Line) :
    ((cleanupPass dep feats x).1).any p = x.any p := by
  rw [cleanupPass_fst]
  apply any_filter_eq
  intro l hl
  simp only [keepLine, Bool.not_eq_true', Bool.or_eq_false_iff]
  refine ⟨?_, ?_⟩
  · cases he : (l == dep) with
    | false => rfl
    | true =>
      have he2 : l = dep := beq_iff_eq.mp he
      rw [he2, h1] at hl
      exact absurd hl (by decide)
  · cases hm : feats.contains l with
    | false => rfl
    | true =>
      have hm2 : l ∈ feats := by simpa using hm
      rw [h2 l hm2] at hl
      exact absurd hl (by decide)

theorem countP_cleaned (dep : Line) (feats : List Line) (p : Line → Bool)
    (h1 : p dep = false) (h2 : ∀ f ∈ feats, p f = false) (x : List Line) :
    ((cleanupPass dep feats x).1).countP p = x.countP p := by
  rw [cleanupPass_fst]
  apply countP_filter_eq
  intro l hl
  simp only [keepLine, Bool.not_eq_true', Bool.or_eq_false_iff]
  refine ⟨?_, ?_⟩
  · cases he : (l == dep) with
    | false => rfl
    | true =>
      have he2 : l = dep := beq_iff_eq.mp he
      rw [he2, h1] at hl
      exact absurd hl (by decide)
  · cases hm : feats.contains l with
    | false => rfl
    | true =>
      have hm2 : l ∈ feats := by simpa using hm
      rw [h2 l hm2] at hl
      exact absurd hl (by decide)

theorem cleaned_no_feat_of_fe (dep : Line) (feats : List Line) (x : List Line)
    (hfe : (cleanupPass dep feats x).2 = false) :
    ∀ l ∈ (cleanupPass dep feats x).1, isFeatHdr l = false := by
  intro l hl
  cases hfl : isFeatHdr l with
  | false => rfl
  | true =>
    have hone : ((cleanupPass dep feats x).1).any isFeatHdr = true :=
      List.any_eq_true.mpr ⟨l, hl, hfl⟩
    rw [cleanupPass_snd, hone] at hfe
    exact absurd hfe (by decide)

theorem cleanup_snd_false_of_input (dep : Line) (feats : List Line) (x : List Line)
    (hfx : ∀ l ∈ x, isFeatHdr l = false) : (cleanupPass dep feats x).2 = false := by
  rw [cleanupPass_snd]
  cases hh : ((cleanupPass dep feats x).1).any isFeatHdr with
  | false => rfl
  | true =>
    obtain ⟨l, hl, hfl⟩ := List.any_eq_true.mp hh
    rw [hfx l (mem_cleaned hl).2] at hfl
    exact absurd hfl (by decide)

theorem rewrite_eq_cleaned_of_input_no_hdrs (dep : Line) (feats : List Line)
    (x : List Line) (hdx : ∀ l ∈ x, isDepsHdr l = false)
    (hfx : ∀ l ∈ x, isFeatHdr l = false) :
    rewrite dep feats x = (cleanupPass dep feats x).1 :=
  rewrite_eq_cleaned_of_no_hdrs dep feats x
    (cleanup_snd_false_of_input dep feats x hfx)
    (fun l hl => hdx l (mem_cleaned hl).2)

theorem keepLine_of_sectionHdr (dep : Line) (feats : List Line)
    (hsd : isSectionHdr dep = false) (hsf : ∀ f ∈ feats, isSectionHdr f = false)
    {l : Line} (hl : isSectionHdr l = true) : keepLine dep feats l = true := by
  simp only [keepLine, Bool.not_eq_true', Bool.or_eq_false_iff]
  refine ⟨?_, ?_⟩
  · cases he : (l == dep) with
    | false => rfl
    | true =>
      have he2 : l = dep := beq_iff_eq.mp he
      rw [he2, hsd] at hl
      exact absurd hl (by decide)
  · cases hm : feats.contains l with
    | false => rfl
    | true =>
      have hm2 : l ∈ feats := by simpa using hm
      rw [hsf l hm2] at hl
      exact absurd hl (by decide)

/-! ### First-occurrence decomposition and filter monotonicity -/

theorem exists_first {p : Line → Bool} : ∀ (l : List Line), l.any p = true →
    ∃ A a B, l = A ++ a :: B ∧ p a = true ∧ (∀ m ∈ A, p m = false)
  | [], h => by simp at h
  | x :: rest, h => by
    cases hx : p x with
    | true => exact ⟨[], x, rest, rfl, hx, fun m hm => absurd hm (List.not_mem_nil m)⟩
    | false =>
      have h' : rest.any p = true := by
        rw [List.any_cons, hx, Bool.false_or] at h
        exact h
      obtain ⟨A, a, B, e, hpa, hA⟩ := exists_first rest h'
      refine ⟨x :: A, a, B, by rw [List.cons_append, e], hpa, ?_⟩
      intro m hm
      rcases List.mem_cons.mp hm with rfl | hm2
      · exact hx
      · exact hA m hm2

theorem filter_sublist_filter_of_imp {p q : Line → Bool}
    (h : ∀ a, p a = true → q a = true) (l : List Line) :
    List.Sublist (l.filter p) (l.filter q) := by
  induction l with
  | nil => exact List.nil_sublist _
  | cons a l ih =>
    cases hp : p a with
    | true =>
      have hq := h a hp
      simp only [List.filter_cons, hp, hq, if_pos]
      exact List.Sublist.cons₂ a ih
    | false =>
      cases hq : q a with
      | true =>
        simp only [List.filter_cons, hp, hq]
        simp only [if_pos, if_neg (by decide : ¬(false = true))]
        exact List.Sublist.cons a ih
      | false =>
        simp only [List.filter_cons, hp, hq, if_neg (by decide : ¬(false = true))]
        exact ih

end ZedScripts

namespace ZedScripts

/-! ### Claim-level helper theorems -/

theorem rewrite_count_dep (dep : Line) (feats : List Line) (x : List Line)
    (hnf : dep ∉ feats) (hnb : dep ≠ blankLine) (hnh : dep ≠ featuresHdrLine)
    (hdd : isDepsHdr dep = false) (hfd : ∀ f ∈ feats, isDepsHdr f = false) :
    (rewrite dep feats x).count dep = (if x.any isDepsHdr = true then 1 else 0) := by
  have hcl : ∀ l ∈ (cleanupPass dep feats x).1, l ≠ dep := by
    intro l hl he
    have hk := (mem_cleaned hl).1
    rw [he] at hk
    simp [keepLine] at hk
  have hany := any_cleaned dep feats isDepsHdr hdd hfd x
  cases hfe : (cleanupPass dep feats x).2 with
  | true =>
    have hcnt := insertLoop_count_dep dep feats true hnf hnb hnh
      (cleanupPass dep feats x).1 false false hcl
    have hda := insertLoop_da dep feats true (cleanupPass dep feats x).1 false false
    simp only [rewrite]
    rw [process_eq_of_fe dep feats x hfe, hcnt, hda, Bool.false_or, hany]
    simp
  | false =>
    cases hfa : (insertLoop dep feats false false false (cleanupPass dep feats x).1).2.2 with
    | true =>
      have hcnt := insertLoop_count_dep dep feats false hnf hnb hnh
        (cleanupPass dep feats x).1 false false hcl
      have hda := insertLoop_da dep feats false (cleanupPass dep feats x).1 false false
      simp only [rewrite]
      rw [process_eq_of_fa dep feats x hfe hfa, hcnt, hda, Bool.false_or, hany]
      simp
    | false =>
      cases hda2 : (insertLoop dep feats false false false (cleanupPass dep feats x).1).2.1 with
      | true =>
        have hcnt := insertLoop_count_dep dep feats false hnf hnb hnh
          (cleanupPass dep feats x).1 false false hcl
        have hda := insertLoop_da dep feats false (cleanupPass dep feats x).1 false false
        have hxany : x.any isDepsHdr = true := by
          have h1 : (false || ((cleanupPass dep feats x).1).any isDepsHdr) = true := by
            rw [← hda]; exact hda2
          rw [Bool.false_or] at h1
          rw [← hany]
          exact h1
        simp only [rewrite]
        rw [process_eq_of_synth dep feats x hfe hfa hda2, List.count_append, hcnt, hda2,
          hxany]
        have hblock : (blankLine :: featuresHdrLine :: feats).count dep = 0 := by
          apply List.count_eq_zero.mpr
          intro hmem
          rcases List.mem_cons.mp hmem with e | hm2
          · exact hnb e
          · rcases List.mem_cons.mp hm2 with e | hm3
            · exact hnh e
            · exact hnf hm3
        rw [hblock]
        simp
      | false =>
        have hcnt := insertLoop_count_dep dep feats false hnf hnb hnh
          (cleanupPass dep feats x).1 false false hcl
        have hda := insertLoop_da dep feats false (cleanupPass dep feats x).1 false false
        have hxany : x.any isDepsHdr = false := by
          have h1 : (false || ((cleanupPass dep feats x).1).any isDepsHdr) = false := by
            rw [← hda]; exact hda2
          rw [Bool.false_or] at h1
          rw [← hany]
          exact h1
        simp only [rewrite]
        rw [process_eq_of_nothing dep feats x hfe hda2, hcnt, hda2, hxany]
        simp

theorem rewrite_count_blank (dep : Line) (feats : List Line) (x : List Line)
    (hb : (blankLine == dep || feats.contains blankLine) = true)
    (hnb : dep ≠ blankLine) :
    (rewrite dep feats x).count blankLine
      = (if (process dep feats x).2.2 = true then feats.count blankLine else 0)
        + (if ((process dep feats x).2.2 && !(cleanupPass dep feats x).2) = true
            then 1 else 0) := by
  have hcb : ∀ l ∈ (cleanupPass dep feats x).1, l ≠ blankLine := by
    intro l hl he
    have hk := (mem_cleaned hl).1
    rw [he] at hk
    simp only [keepLine, Bool.not_eq_true', Bool.or_eq_false_iff] at hk
    rw [hk.1, hk.2] at hb
    exact absurd hb (by decide)
  cases hfe : (cleanupPass dep feats x).2 with
  | true =>
    have hcnt := insertLoop_count_blank_feTrue dep feats hnb
      (cleanupPass dep feats x).1 false false hcb
    simp only [rewrite]
    rw [process_eq_of_fe dep feats x hfe, hcnt]
    simp
  | false =>
    have hcf := cleaned_no_feat_of_fe dep feats x hfe
    have hcnt := insertLoop_count_blank_feFalse dep feats hnb
      (cleanupPass dep feats x).1 false false (fun l hl => ⟨hcb l hl, hcf l hl⟩)
    cases hfa : (insertLoop dep feats false false false (cleanupPass dep feats x).1).2.2 with
    | true =>
      simp only [rewrite]
      rw [process_eq_of_fa dep feats x hfe hfa, hcnt, hfa]
      simp
    | false =>
      cases hda : (insertLoop dep feats false false false (cleanupPass dep feats x).1).2.1 with
      | true =>
        simp only [rewrite]
        rw [process_eq_of_synth dep feats x hfe hfa hda]
        show List.count blankLine ((insertLoop dep feats false false false
          (cleanupPass dep feats x).1).1 ++ blankLine :: featuresHdrLine :: feats)
            = _
        rw [List.count_append, hcnt, hfa]
        have hfbne : featuresHdrLine ≠ blankLine :=
          fun e => blankLine_ne_featuresHdrLine e.symm
        have h1 : (blankLine :: featuresHdrLine :: feats).count blankLine
            = feats.count blankLine + 1 := by
          simp [List.count_cons, blankLine_ne_featuresHdrLine, hfbne]
        rw [h1]
        simp
      | false =>
        simp only [rewrite]
        rw [process_eq_of_nothing dep feats x hfe hda, hcnt, hfa]
        simp

theorem rewrite_sublist_passthrough (dep : Line) (feats : List Line) (x : List Line) :
    List.Sublist (x.filter (fun l => !isSectionHdr l && keepLine dep feats l))
      (rewrite dep feats x) := by
  have h1 : List.Sublist (x.filter (fun l => !isSectionHdr l && keepLine dep feats l))
      (x.filter (keepLine dep feats)) := by
    apply filter_sublist_filter_of_imp
    intro a ha
    cases hk : keepLine dep feats a with
    | true => rfl
    | false => rw [hk, Bool.and_false] at ha; exact absurd ha (by decide)
  have h2 : List.Sublist ((cleanupPass dep feats x).1) (rewrite dep feats x) := by
    cases hfe : (cleanupPass dep feats x).2 with
    | true =>
      simp only [rewrite]
      rw [process_eq_of_fe dep feats x hfe]
      exact insertLoop_sublist dep feats true _ false false
    | false =>
      cases hfa : (insertLoop dep feats false false false (cleanupPass dep feats x).1).2.2 with
      | true =>
        simp only [rewrite]
        rw [process_eq_of_fa dep feats x hfe hfa]
        exact insertLoop_sublist dep feats false _ false false
      | false =>
        cases hda : (insertLoop dep feats false false false (cleanupPass dep feats x).1).2.1 with
        | true =>
          simp only [rewrite]
          rw [process_eq_of_synth dep feats x hfe hfa hda]
          exact (insertLoop_sublist dep feats false _ false false).trans
            (List.sublist_append_left _ _)
        | false =>
          simp only [rewrite]
          rw [process_eq_of_nothing dep feats x hfe hda]
          exact insertLoop_sublist dep feats false _ false false
  rw [← cleanupPass_fst] at h1
  exact h1.trans h2

theorem processFile_written (dep : Line) (feats : List Line) (x : List Line) :
    (processFile dep feats x).written = rewrite dep feats x := rfl

theorem processFile_okMsg (dep : Line) (feats : List Line) (x : List Line)
    (hdd : isDepsHdr dep = false) (hfd : ∀ f ∈ feats, isDepsHdr f = false) :
    (processFile dep feats x).okMsg = x.any isDepsHdr := by
  have hda : (process dep feats x).2.1 = x.any isDepsHdr := by
    show (insertionStage dep feats (cleanupPass dep feats x)).2.1 = _
    rw [insertionStage_da, insertLoop_da, Bool.false_or,
      any_cleaned dep feats isDepsHdr hdd hfd x]
  have key : x.any isDepsHdr = true → (process dep feats x).2.2 = true := by
    intro hx
    show (insertionStage dep feats (cleanupPass dep feats x)).2.2 = true
    rw [insertionStage_fa]
    cases hfe : (cleanupPass dep feats x).2 with
    | true =>
      have hcfeat : ((cleanupPass dep feats x).1).any isFeatHdr = true := by
        rw [← cleanupPass_snd]
        exact hfe
      rw [insertLoop_fa_of_any dep feats true _ false false hcfeat]
      simp
    | false =>
      rw [insertLoop_da, Bool.false_or,
        any_cleaned dep feats isDepsHdr hdd hfd x, hx]
      simp
  show ((process dep feats x).2.1 && (process dep feats x).2.2) = x.any isDepsHdr
  cases hx : x.any isDepsHdr with
  | false => rw [hda, hx]; simp
  | true =>
    rw [hda, hx, key hx]
    rfl

theorem rewrite_features_unique (dep : Line) (feats : List Line) (x : List Line)
    (hdf : isFeatHdr dep = false) (hff : ∀ f ∈ feats, isFeatHdr f = false)
    (hdd : isDepsHdr dep = false) (hfd : ∀ f ∈ feats, isDepsHdr f = false)
    (hcnt1 : x.countP isFeatHdr ≤ 1)
    (hsome : (x.any isDepsHdr || x.any isFeatHdr) = true) :
    (rewrite dep feats x).countP isFeatHdr = 1
    ∧ ∃ A hdr B, rewrite dep feats x = A ++ hdr :: (feats ++ B)
        ∧ isFeatHdr hdr = true ∧ (∀ l ∈ A, isFeatHdr l = false) := by
  have hfeatsP : feats.countP isFeatHdr = 0 :=
    List.countP_eq_zero.mpr (fun a ha => by simp [hff a ha])
  cases hfe : (cleanupPass dep feats x).2 with
  | true =>
    have hanyc : ((cleanupPass dep feats x).1).any isFeatHdr = true := by
      rw [← cleanupPass_snd]
      exact hfe
    have hcc : ((cleanupPass dep feats x).1).countP isFeatHdr = 1 := by
      rw [countP_cleaned dep feats isFeatHdr hdf hff x]
      have hge : 0 < x.countP isFeatHdr := by
        rw [← countP_cleaned dep feats isFeatHdr hdf hff x]
        exact List.countP_pos_iff.mpr (List.any_eq_true.mp hanyc)
      omega
    obtain ⟨A, a, B, hsplit, hpa, hAall⟩ := exists_first _ hanyc
    have hA0 : A.countP isFeatHdr = 0 :=
      List.countP_eq_zero.mpr (fun m hm => by simp [hAall m hm])
    have hB : B.countP isFeatHdr = 0 := by
      rw [hsplit, List.countP_append, List.countP_cons, hA0, hpa] at hcc
      rw [if_pos rfl] at hcc
      omega
    have hBall : ∀ m ∈ B, isFeatHdr m = false := by
      intro m hm
      have hm2 := List.countP_eq_zero.mp hB m hm
      cases h2 : isFeatHdr m with
      | false => rfl
      | true => exact absurd h2 hm2
    obtain ⟨A', da', e, hA'⟩ := insertLoop_decomp_feat dep feats hdf A a B false hAall hpa
    have hre : rewrite dep feats x
        = A' ++ a :: (feats ++ (insertLoop dep feats true da' true B).1) := by
      simp only [rewrite]
      rw [process_eq_of_fe dep feats x hfe, hsplit, e]
    refine ⟨?_, A', a, (insertLoop dep feats true da' true B).1, hre, hpa, hA'⟩
    rw [hre, List.countP_append, List.countP_cons, List.countP_append]
    have h1 : A'.countP isFeatHdr = 0 :=
      List.countP_eq_zero.mpr (fun m hm => by simp [hA' m hm])
    have h2 : ((insertLoop dep feats true da' true B).1).countP isFeatHdr = 0 :=
      insertLoop_countP_featHdr_faTrue dep feats true hdf B da' hBall
    rw [h1, h2, hfeatsP, hpa]
    simp
  | false =>
    have hcall := cleaned_no_feat_of_fe dep feats x hfe
    have hxf : x.any isFeatHdr = false := by
      rw [← any_cleaned dep feats isFeatHdr hdf hff x, ← cleanupPass_snd]
      exact hfe
    have hxd : x.any isDepsHdr = true := by
      rw [hxf, Bool.or_false] at hsome
      exact hsome
    have hda : (insertLoop dep feats false false false (cleanupPass dep feats x).1).2.1
        = true := by
      rw [insertLoop_da, Bool.false_or, any_cleaned dep feats isDepsHdr hdd hfd x, hxd]
    cases hfa : (insertLoop dep feats false false false (cleanupPass dep feats x).1).2.2 with
    | true =>
      obtain ⟨A', C', e, hA', hC'⟩ :=
        insertLoop_decomp_synth dep feats hdf (cleanupPass dep feats x).1 false hcall hfa
      have hre : rewrite dep feats x = A' ++ featuresHdrLine :: (feats ++ C') := by
        simp only [rewrite]
        rw [process_eq_of_fa dep feats x hfe hfa, e]
      refine ⟨?_, A', featuresHdrLine, C', hre, featHdr_featuresHdrLine, hA'⟩
      rw [hre, List.countP_append, List.countP_cons, List.countP_append]
      have h1 : A'.countP isFeatHdr = 0 :=
        List.countP_eq_zero.mpr (fun m hm => by simp [hA' m hm])
      rw [h1, hC', hfeatsP, featHdr_featuresHdrLine]
      simp
    | false =>
      have hre : rewrite dep feats x
          = (insertLoop dep feats false false false (cleanupPass dep feats x).1).1
            ++ blankLine :: featuresHdrLine :: feats := by
        simp only [rewrite]
        rw [process_eq_of_synth dep feats x hfe hfa hda]
      have h0 : ((insertLoop dep feats false false false
          (cleanupPass dep feats x).1).1).countP isFeatHdr = 0 :=
        insertLoop_countP_featHdr_keepfa dep feats false hdf
          (cleanupPass dep feats x).1 false false hcall hfa
      have hall0 : ∀ m ∈ (insertLoop dep feats false false false
          (cleanupPass dep feats x).1).1, isFeatHdr m = false := by
        intro m hm
        have hm2 := List.countP_eq_zero.mp h0 m hm
        cases h2 : isFeatHdr m with
        | false => rfl
        | true => exact absurd h2 hm2
      refine ⟨?_, (insertLoop dep feats false false false
          (cleanupPass dep feats x).1).1 ++ [blankLine], featuresHdrLine, [], ?_,
          featHdr_featuresHdrLine, ?_⟩
      · rw [hre, List.countP_append, h0, List.countP_cons, List.countP_cons, hfeatsP,
          featHdr_featuresHdrLine, featHdr_blankLine]
        simp
      · rw [hre]
        simp
      · intro m hm
        rcases List.mem_append.mp hm with hm1 | hm2
        · exact hall0 m hm1
        · rcases List.mem_cons.mp hm2 with rfl | hm3
          · exact featHdr_blankLine
          · exact absurd hm3 (List.not_mem_nil m)

end ZedScripts

namespace ZedScripts

/-- Placement of the synthesized features section: with a dependencies
header, no features header anywhere, and a first other section header `h`
after it, the synthesized section lands immediately before `h`. -/
theorem rewrite_synth_placement (dep : Line) (feats : List Line)
    (hsd : isSectionHdr dep = false) (hsf : ∀ f ∈ feats, isSectionHdr f = false)
    (pre mid post : List Line) (d h : Line)
    (hall : ∀ l ∈ pre ++ d :: (mid ++ h :: post), isFeatHdr l = false)
    (hpre : ∀ l ∈ pre, isDepsHdr l = false)
    (hd : isDepsHdr d = true)
    (hmid : ∀ l ∈ mid, isSectionHdr l = true → isDepsHdr l = true)
    (hsh : isSectionHdr h = true) (hhd : isDepsHdr h = false) :
    rewrite dep feats (pre ++ d :: (mid ++ h :: post))
      = pre.filter (keepLine dep feats)
        ++ d :: dep :: (mid.filter (keepLine dep feats)
        ++ blankLine :: featuresHdrLine :: (feats
        ++ h :: post.filter (keepLine dep feats))) := by
  have hKd : keepLine dep feats d = true :=
    keepLine_of_sectionHdr dep feats hsd hsf (isSectionHdr_of_isDepsHdr hd)
  have hKh : keepLine dep feats h = true :=
    keepLine_of_sectionHdr dep feats hsd hsf hsh
  have hcfst : (cleanupPass dep feats (pre ++ d :: (mid ++ h :: post))).1
      = pre.filter (keepLine dep feats)
        ++ d :: (mid.filter (keepLine dep feats)
        ++ h :: post.filter (keepLine dep feats)) := by
    rw [cleanupPass_fst]
    simp [List.filter_append, List.filter_cons, hKd, hKh]
  have hfe : (cleanupPass dep feats (pre ++ d :: (mid ++ h :: post))).2 = false :=
    cleanup_snd_false_of_input dep feats _ hall
  have hfpre : ∀ l ∈ pre.filter (keepLine dep feats),
      isDepsHdr l = false ∧ isFeatHdr l = false := by
    intro l hl
    have hl2 := (List.mem_filter.mp hl).1
    exact ⟨hpre l hl2, hall l (List.mem_append_left _ hl2)⟩
  have hfmid : ∀ l ∈ mid.filter (keepLine dep feats),
      isFeatHdr l = false ∧ (isSectionHdr l = true → isDepsHdr l = true) := by
    intro l hl
    have hl2 := (List.mem_filter.mp hl).1
    refine ⟨hall l ?_, hmid l hl2⟩
    exact List.mem_append_right _ (List.mem_cons_of_mem d (List.mem_append_left _ hl2))
  have hfh : isFeatHdr h = false :=
    hall h (List.mem_append_right _ (List.mem_cons_of_mem d
      (List.mem_append_right _ (List.mem_cons_self h _))))
  have e5 := insertLoop_true_true dep feats false (post.filter (keepLine dep feats))
  have e4 : insertLoop dep feats false true false
      (h :: post.filter (keepLine dep feats))
      = (blankLine :: featuresHdrLine
          :: (feats ++ h :: post.filter (keepLine dep feats)), true, true) := by
    rw [insertLoop_cons_synth dep feats _ hsh hhd hfh, e5]
  have e3 : insertLoop dep feats false true false
      (mid.filter (keepLine dep feats) ++ h :: post.filter (keepLine dep feats))
      = (mid.filter (keepLine dep feats) ++ blankLine :: featuresHdrLine
          :: (feats ++ h :: post.filter (keepLine dep feats)), true, true) := by
    rw [insertLoop_append_mid dep feats _ _ hfmid, e4]
  have e2 : insertLoop dep feats false false false
      (d :: (mid.filter (keepLine dep feats) ++ h :: post.filter (keepLine dep feats)))
      = (d :: dep :: (mid.filter (keepLine dep feats) ++ blankLine :: featuresHdrLine
          :: (feats ++ h :: post.filter (keepLine dep feats))), true, true) := by
    rw [insertLoop_cons_deps dep feats false false _ hd, e3]
  have e1 : insertLoop dep feats false false false
      (pre.filter (keepLine dep feats)
        ++ d :: (mid.filter (keepLine dep feats)
        ++ h :: post.filter (keepLine dep feats)))
      = (pre.filter (keepLine dep feats)
          ++ d :: dep :: (mid.filter (keepLine dep feats) ++ blankLine
          :: featuresHdrLine :: (feats ++ h :: post.filter (keepLine dep feats))),
         true, true) := by
    rw [insertLoop_append_nohdr dep feats false false _ _ hfpre, e2]
  have hfa : (insertLoop dep feats false false false
      (cleanupPass dep feats (pre ++ d :: (mid ++ h :: post))).1).2.2 = true := by
    rw [hcfst, e1]
  simp only [rewrite]
  rw [process_eq_of_fa dep feats _ hfe hfa, hcfst, e1]

end ZedScripts

namespace ZedScripts

/-! ### Concrete facts about the two scripts' directive lines -/

theorem hp_dep_not_mem : hotpathDep ∉ hotpathFeats := by decide

theorem hp_dep_ne_blank : hotpathDep ≠ blankLine := by decide

theorem hp_dep_ne_featuresHdr : hotpathDep ≠ featuresHdrLine := by decide

theorem hp_dep_not_depsHdr : isDepsHdr hotpathDep = false := by decide

theorem hp_feats_not_depsHdr : ∀ f ∈ hotpathFeats, isDepsHdr f = false := by decide

theorem hp_dep_not_featHdr : isFeatHdr hotpathDep = false := by decide

theorem hp_feats_not_featHdr : ∀ f ∈ hotpathFeats, isFeatHdr f = false := by decide

theorem hp_blank_removable :
    (blankLine == hotpathDep || hotpathFeats.contains blankLine) = true := by decide

theorem hp_keep_featuresHdr :
    keepLine hotpathDep hotpathFeats featuresHdrLine = true := by decide

theorem hp_dep_not_sectionHdr : isSectionHdr hotpathDep = false := by decide

theorem hp_feats_not_sectionHdr : ∀ f ∈ hotpathFeats, isSectionHdr f = false := by
  decide

theorem ch_dep_not_mem : channelsDep ∉ channelsFeats := by decide

theorem ch_dep_ne_blank : channelsDep ≠ blankLine := by decide

theorem ch_dep_ne_featuresHdr : channelsDep ≠ featuresHdrLine := by decide

theorem ch_dep_not_depsHdr : isDepsHdr channelsDep = false := by decide

theorem ch_feats_not_depsHdr : ∀ f ∈ channelsFeats, isDepsHdr f = false := by decide

theorem ch_dep_not_featHdr : isFeatHdr channelsDep = false := by decide

theorem ch_feats_not_featHdr : ∀ f ∈ channelsFeats, isFeatHdr f = false := by decide

theorem ch_blank_removable :
    (blankLine == channelsDep || channelsFeats.contains blankLine) = true := by decide

theorem ch_keep_featuresHdr :
    keepLine channelsDep channelsFeats featuresHdrLine = true := by decide

theorem ch_dep_not_sectionHdr : isSectionHdr channelsDep = false := by decide

theorem ch_feats_not_sectionHdr : ∀ f ∈ channelsFeats, isSectionHdr f = false := by
  decide

theorem cleaned_no_blank (dep : Line) (feats : List Line) (x : List Line)
    (hb : (blankLine == dep || feats.contains blankLine) = true) :
    ((cleanupPass dep feats x).1).all (fun l => !(l == blankLine)) = true := by
  apply List.all_eq_true.mpr
  intro l hl
  cases he : (l == blankLine) with
  | false => simp [he]
  | true =>
    have he2 : l = blankLine := beq_iff_eq.mp he
    have hk := (mem_cleaned hl).1
    rw [he2] at hk
    simp only [keepLine, Bool.not_eq_true', Bool.or_eq_false_iff] at hk
    rw [hk.1, hk.2] at hb
    exact absurd hb (by decide)

end ZedScripts

namespace ZedScripts

/-! ### Claims -/

/-- C1 counterexample: the rewrite is not idempotent.  On a manifest that is
just a `[dependencies]` header, the first run synthesizes a blank line, a
`[features]` header and the feature block at the end of the file; the second
run strips the dependency line, the blank line and the feature lines, keeps
the `[features]` header, and re-inserts without the preceding blank line, so
the second output is one line shorter than the first. -/
theorem c1_idempotence_counterexample :
    ¬(rewrite hotpathDep hotpathFeats (rewrite hotpathDep hotpathFeats exDepsOnly)
        = rewrite hotpathDep hotpathFeats exDepsOnly) := by decide

/-- C1 (amended): applying the full transform twice yields the same line
sequence as applying it once for every manifest content whose cleaned
content either already has a features-section header or has no
dependencies-section header — that is, whenever no features section has to
be synthesized. -/
theorem c1_amended_conditional_idempotence (x : List Line) :
    ((cleanupPass hotpathDep hotpathFeats x).2 = true
        ∨ ((cleanupPass hotpathDep hotpathFeats x).1).any isDepsHdr = false →
      rewrite hotpathDep hotpathFeats (rewrite hotpathDep hotpathFeats x)
        = rewrite hotpathDep hotpathFeats x)
    ∧ ((cleanupPass channelsDep channelsFeats x).2 = true
        ∨ ((cleanupPass channelsDep channelsFeats x).1).any isDepsHdr = false →
      rewrite channelsDep channelsFeats (rewrite channelsDep channelsFeats x)
        = rewrite channelsDep channelsFeats x) := by
  constructor
  · intro hyp
    rcases hyp with hfe | hany
    · exact rewrite_idem_of_fe _ _ _ hfe
    · cases hfe : (cleanupPass hotpathDep hotpathFeats x).2 with
      | true => exact rewrite_idem_of_fe _ _ _ hfe
      | false => exact rewrite_idem_of_no_deps _ _ _ hfe hany
  · intro hyp
    rcases hyp with hfe | hany
    · exact rewrite_idem_of_fe _ _ _ hfe
    · cases hfe : (cleanupPass channelsDep channelsFeats x).2 with
      | true => exact rewrite_idem_of_fe _ _ _ hfe
      | false => exact rewrite_idem_of_no_deps _ _ _ hfe hany

/-- C1 amended witness: on a manifest that already has a `[features]`
header, both scripts' transforms are idempotent. -/
theorem c1_amended_witness :
    ((cleanupPass hotpathDep hotpathFeats exFeatOnly).2 = true
      ∨ ((cleanupPass hotpathDep hotpathFeats exFeatOnly).1).any isDepsHdr = false)
    ∧ rewrite hotpathDep hotpathFeats (rewrite hotpathDep hotpathFeats exFeatOnly)
        = rewrite hotpathDep hotpathFeats exFeatOnly
    ∧ ((cleanupPass channelsDep channelsFeats exFeatOnly).2 = true
      ∨ ((cleanupPass channelsDep channelsFeats exFeatOnly).1).any isDepsHdr = false)
    ∧ rewrite channelsDep channelsFeats (rewrite channelsDep channelsFeats exFeatOnly)
        = rewrite channelsDep channelsFeats exFeatOnly :=
  ⟨Or.inl (by decide),
   (c1_amended_conditional_idempotence exFeatOnly).1 (Or.inl (by decide)),
   Or.inl (by decide),
   (c1_amended_conditional_idempotence exFeatOnly).2 (Or.inl (by decide))⟩

/-- C2 counterexample: on a manifest whose only line is a `[features]`
header — so no line matches the dependencies header — the transform still
inserts the feature lines after the existing features header, so the output
is not the input minus stripped directive lines. -/
theorem c2_no_deps_counterexample :
    exFeatOnly.all (fun l => !isDepsHdr l) = true
    ∧ ¬(rewrite hotpathDep hotpathFeats exFeatOnly
        = (cleanupPass hotpathDep hotpathFeats exFeatOnly).1) := by decide

/-- C2 (amended): for every manifest content in which no line matches the
dependencies-section header pattern and no line matches the features-section
header pattern, the transform inserts nothing: the output equals the input
minus the stripped directive lines. -/
theorem c2_amended_no_insertion (x : List Line) :
    x.all (fun l => !isDepsHdr l) = true →
    x.all (fun l => !isFeatHdr l) = true →
    rewrite hotpathDep hotpathFeats x = (cleanupPass hotpathDep hotpathFeats x).1
    ∧ rewrite channelsDep channelsFeats x
        = (cleanupPass channelsDep channelsFeats x).1 := by
  intro h1 h2
  have hd : ∀ l ∈ x, isDepsHdr l = false := by
    intro l hl
    have := List.all_eq_true.mp h1 l hl
    simpa using this
  have hf : ∀ l ∈ x, isFeatHdr l = false := by
    intro l hl
    have := List.all_eq_true.mp h2 l hl
    simpa using this
  exact ⟨rewrite_eq_cleaned_of_input_no_hdrs _ _ x hd hf,
    rewrite_eq_cleaned_of_input_no_hdrs _ _ x hd hf⟩

/-- C2 amended witness: a headerless one-line manifest passes through both
transforms untouched. -/
theorem c2_amended_witness :
    exPlain.all (fun l => !isDepsHdr l) = true
    ∧ exPlain.all (fun l => !isFeatHdr l) = true
    ∧ rewrite hotpathDep hotpathFeats exPlain
        = (cleanupPass hotpathDep hotpathFeats exPlain).1
    ∧ rewrite channelsDep channelsFeats exPlain
        = (cleanupPass channelsDep channelsFeats exPlain).1 :=
  ⟨by decide, by decide,
   (c2_amended_no_insertion exPlain (by decide) (by decide)).1,
   (c2_amended_no_insertion exPlain (by decide) (by decide)).2⟩

/-- C3: the output contains exactly one copy of the dependency line when
some input line starts with `[dependencies]`, and zero copies otherwise,
regardless of how many copies the input contained. -/
theorem c3_dependency_line_unique (x : List Line) :
    (rewrite hotpathDep hotpathFeats x).count hotpathDep
      = (if x.any isDepsHdr = true then 1 else 0)
    ∧ (rewrite channelsDep channelsFeats x).count channelsDep
      = (if x.any isDepsHdr = true then 1 else 0) :=
  ⟨rewrite_count_dep hotpathDep hotpathFeats x hp_dep_not_mem hp_dep_ne_blank
      hp_dep_ne_featuresHdr hp_dep_not_depsHdr hp_feats_not_depsHdr,
   rewrite_count_dep channelsDep channelsFeats x ch_dep_not_mem ch_dep_ne_blank
      ch_dep_ne_featuresHdr ch_dep_not_depsHdr ch_feats_not_depsHdr⟩

/-- C4 counterexample: a manifest with no section headers at all is passed
through unchanged, so its output contains zero features-section headers,
not exactly one. -/
theorem c4_features_unique_counterexample :
    ¬((rewrite hotpathDep hotpathFeats exPlain).countP isFeatHdr = 1) := by decide

/-- C4 (amended): for every manifest content that contains a dependencies
header or a features header, and contains at most one line starting with
`[features]`, the output contains exactly one features-section header and
the full feature-line block appears unmodified, contiguous and in order
immediately after that header. -/
theorem c4_amended_features_block (x : List Line) :
    x.countP isFeatHdr ≤ 1 →
    (x.any isDepsHdr || x.any isFeatHdr) = true →
    ((rewrite hotpathDep hotpathFeats x).countP isFeatHdr = 1
      ∧ ∃ A hdr B, rewrite hotpathDep hotpathFeats x = A ++ hdr :: (hotpathFeats ++ B)
          ∧ isFeatHdr hdr = true ∧ (∀ l ∈ A, isFeatHdr l = false))
    ∧ ((rewrite channelsDep channelsFeats x).countP isFeatHdr = 1
      ∧ ∃ A hdr B, rewrite channelsDep channelsFeats x = A ++ hdr :: (channelsFeats ++ B)
          ∧ isFeatHdr hdr = true ∧ (∀ l ∈ A, isFeatHdr l = false)) := fun h1 h2 =>
  ⟨rewrite_features_unique hotpathDep hotpathFeats x hp_dep_not_featHdr
      hp_feats_not_featHdr hp_dep_not_depsHdr hp_feats_not_depsHdr h1 h2,
   rewrite_features_unique channelsDep channelsFeats x ch_dep_not_featHdr
      ch_feats_not_featHdr ch_dep_not_depsHdr ch_feats_not_depsHdr h1 h2⟩

/-- C4 amended witness: a manifest with a lone `[dependencies]` header
satisfies the hypotheses, and both transforms produce exactly one features
header with the block after it. -/
theorem c4_amended_witness :
    exDepsOnly.countP isFeatHdr ≤ 1
    ∧ (exDepsOnly.any isDepsHdr || exDepsOnly.any isFeatHdr) = true
    ∧ (((rewrite hotpathDep hotpathFeats exDepsOnly).countP isFeatHdr = 1
      ∧ ∃ A hdr B, rewrite hotpathDep hotpathFeats exDepsOnly
            = A ++ hdr :: (hotpathFeats ++ B)
          ∧ isFeatHdr hdr = true ∧ (∀ l ∈ A, isFeatHdr l = false))
    ∧ ((rewrite channelsDep channelsFeats exDepsOnly).countP isFeatHdr = 1
      ∧ ∃ A hdr B, rewrite channelsDep channelsFeats exDepsOnly
            = A ++ hdr :: (channelsFeats ++ B)
          ∧ isFeatHdr hdr = true ∧ (∀ l ∈ A, isFeatHdr l = false))) :=
  ⟨by decide, by decide, c4_amended_features_block exDepsOnly (by decide) (by decide)⟩

/-- C5: with a dependencies header present, no features header anywhere,
and a first other section header `h` after the dependencies header, the
transform inserts the synthesized features section (blank line, `[features]`
header, feature block) immediately before `h` — after the dependencies
section and before every pre-existing section that followed it. -/
theorem c5_synth_before_next_section (pre mid post : List Line) (d h : Line) :
    (∀ l ∈ pre ++ d :: (mid ++ h :: post), isFeatHdr l = false) →
    (∀ l ∈ pre, isDepsHdr l = false) →
    isDepsHdr d = true →
    (∀ l ∈ mid, isSectionHdr l = true → isDepsHdr l = true) →
    isSectionHdr h = true → isDepsHdr h = false →
    (rewrite hotpathDep hotpathFeats (pre ++ d :: (mid ++ h :: post))
        = pre.filter (keepLine hotpathDep hotpathFeats)
          ++ d :: hotpathDep :: (mid.filter (keepLine hotpathDep hotpathFeats)
          ++ blankLine :: featuresHdrLine :: (hotpathFeats
          ++ h :: post.filter (keepLine hotpathDep hotpathFeats)))
      ∧ rewrite channelsDep channelsFeats (pre ++ d :: (mid ++ h :: post))
        = pre.filter (keepLine channelsDep channelsFeats)
          ++ d :: channelsDep :: (mid.filter (keepLine channelsDep channelsFeats)
          ++ blankLine :: featuresHdrLine :: (channelsFeats
          ++ h :: post.filter (keepLine channelsDep channelsFeats)))) :=
  fun h1 h2 h3 h4 h5 h6 =>
  ⟨rewrite_synth_placement hotpathDep hotpathFeats hp_dep_not_sectionHdr
      hp_feats_not_sectionHdr pre mid post d h h1 h2 h3 h4 h5 h6,
   rewrite_synth_placement channelsDep channelsFeats ch_dep_not_sectionHdr
      ch_feats_not_sectionHdr pre mid post d h h1 h2 h3 h4 h5 h6⟩

/-- C5 witness: the spec's example manifest
`[dependencies] / foo = "1" / [dev-dependencies] / bar = "2"`. -/
theorem c5_witness :
    (∀ l ∈ [] ++ ("[dependencies]\n").toList
        :: ([("foo = \"1\"\n").toList]
          ++ ("[dev-dependencies]\n").toList :: [("bar = \"2\"\n").toList]),
      isFeatHdr l = false)
    ∧ (rewrite hotpathDep hotpathFeats
        ([] ++ ("[dependencies]\n").toList
          :: ([("foo = \"1\"\n").toList]
            ++ ("[dev-dependencies]\n").toList :: [("bar = \"2\"\n").toList]))
        = List.filter (keepLine hotpathDep hotpathFeats) []
          ++ ("[dependencies]\n").toList :: hotpathDep
            :: (List.filter (keepLine hotpathDep hotpathFeats) [("foo = \"1\"\n").toList]
          ++ blankLine :: featuresHdrLine :: (hotpathFeats
          ++ ("[dev-dependencies]\n").toList
            :: List.filter (keepLine hotpathDep hotpathFeats) [("bar = \"2\"\n").toList]))
      ∧ rewrite channelsDep channelsFeats
        ([] ++ ("[dependencies]\n").toList
          :: ([("foo = \"1\"\n").toList]
            ++ ("[dev-dependencies]\n").toList :: [("bar = \"2\"\n").toList]))
        = List.filter (keepLine channelsDep channelsFeats) []
          ++ ("[dependencies]\n").toList :: channelsDep
            :: (List.filter (keepLine channelsDep channelsFeats) [("foo = \"1\"\n").toList]
          ++ blankLine :: featuresHdrLine :: (channelsFeats
          ++ ("[dev-dependencies]\n").toList
            :: List.filter (keepLine channelsDep channelsFeats)
                 [("bar = \"2\"\n").toList]))) :=
  ⟨by decide,
   c5_synth_before_next_section [] [("foo = \"1\"\n").toList]
     [("bar = \"2\"\n").toList] (("[dependencies]\n").toList)
     (("[dev-dependencies]\n").toList)
     (by decide) (by decide) (by decide) (by decide) (by decide) (by decide)⟩

/-- C6: every input line that does not start with `[` and is not the
dependency line or a feature-block line appears verbatim in the output, in
the original relative order (the filtered input embeds as a subsequence of
the output). -/
theorem c6_passthrough_sublist (x : List Line) :
    List.Sublist
      (x.filter (fun l => !isSectionHdr l && keepLine hotpathDep hotpathFeats l))
      (rewrite hotpathDep hotpathFeats x)
    ∧ List.Sublist
      (x.filter (fun l => !isSectionHdr l && keepLine channelsDep channelsFeats l))
      (rewrite channelsDep channelsFeats x) :=
  ⟨rewrite_sublist_passthrough _ _ x, rewrite_sublist_passthrough _ _ x⟩

/-- C7: the cleanup pass removes every blank line of the input (the blank
line is itself a stripped directive line for both scripts), and the blank
lines of the output are exactly the ones the insertion pass adds: the
feature block's blanks when the block was inserted, plus the blank
preceding a synthesized features section. -/
theorem c7_blank_lines_stripped (x : List Line) :
    (((cleanupPass hotpathDep hotpathFeats x).1).all (fun l => !(l == blankLine)) = true
      ∧ (rewrite hotpathDep hotpathFeats x).count blankLine
          = (if (process hotpathDep hotpathFeats x).2.2 = true
              then hotpathFeats.count blankLine else 0)
            + (if ((process hotpathDep hotpathFeats x).2.2
                && !(cleanupPass hotpathDep hotpathFeats x).2) = true then 1 else 0))
    ∧ (((cleanupPass channelsDep channelsFeats x).1).all
          (fun l => !(l == blankLine)) = true
      ∧ (rewrite channelsDep channelsFeats x).count blankLine
          = (if (process channelsDep channelsFeats x).2.2 = true
              then channelsFeats.count blankLine else 0)
            + (if ((process channelsDep channelsFeats x).2.2
                && !(cleanupPass channelsDep channelsFeats x).2) = true
               then 1 else 0)) :=
  ⟨⟨cleaned_no_blank hotpathDep hotpathFeats x hp_blank_removable,
    rewrite_count_blank hotpathDep hotpathFeats x hp_blank_removable hp_dep_ne_blank⟩,
   ⟨cleaned_no_blank channelsDep channelsFeats x ch_blank_removable,
    rewrite_count_blank channelsDep channelsFeats x ch_blank_removable
      ch_dep_ne_blank⟩⟩

/-- C8: the transformed content is written back unconditionally (the
written content is the rewrite, whatever the flags), and the success
indicator is emitted exactly when both insertions happened, which for these
scripts is exactly when some input line starts with `[dependencies]`. -/
theorem c8_write_unconditional_success_iff (x : List Line) :
    ((processFile hotpathDep hotpathFeats x).written = rewrite hotpathDep hotpathFeats x
      ∧ (processFile hotpathDep hotpathFeats x).okMsg = x.any isDepsHdr)
    ∧ ((processFile channelsDep channelsFeats x).written
          = rewrite channelsDep channelsFeats x
      ∧ (processFile channelsDep channelsFeats x).okMsg = x.any isDepsHdr) :=
  ⟨⟨processFile_written _ _ x,
    processFile_okMsg _ _ x hp_dep_not_depsHdr hp_feats_not_depsHdr⟩,
   ⟨processFile_written _ _ x,
    processFile_okMsg _ _ x ch_dep_not_depsHdr ch_feats_not_depsHdr⟩⟩

/-- C9: when the `crates/` directory does not exist, `main` reports the
diagnostic and performs no further work: no manifest is read or written,
and the process exits with status 0. -/
theorem c9_missing_crates_dir (fs : List (List Char × List Line)) :
    mainRun hotpathDep hotpathFeats false fs
        = { dirError := true, readPaths := [], writes := [], exitCode := 0 }
    ∧ mainRun channelsDep channelsFeats false fs
        = { dirError := true, readPaths := [], writes := [], exitCode := 0 } :=
  ⟨rfl, rfl⟩

/-- C10: two applications of the transform reach a fixed point: for every
manifest content, three applications give exactly the same line sequence as
two. -/
theorem c10_third_application_noop (x : List Line) :
    rewrite hotpathDep hotpathFeats (rewrite hotpathDep hotpathFeats
        (rewrite hotpathDep hotpathFeats x))
      = rewrite hotpathDep hotpathFeats (rewrite hotpathDep hotpathFeats x)
    ∧ rewrite channelsDep channelsFeats (rewrite channelsDep channelsFeats
        (rewrite channelsDep channelsFeats x))
      = rewrite channelsDep channelsFeats (rewrite channelsDep channelsFeats x) :=
  ⟨rewrite_rewrite_fix hotpathDep hotpathFeats x hp_keep_featuresHdr,
   rewrite_rewrite_fix channelsDep channelsFeats x ch_keep_featuresHdr⟩

end ZedScripts
